import Mathlib

/-
Verification of the hashmap-rs repository: three hash-table engines
(separate chaining in src/chaining.rs, open addressing with linear probing
in src/open_addressing.rs, and a bit-packed open-addressing variant in
src/open_addressing_compact.rs), shallowly embedded in Lean.

Modelling conventions:
* Rust `usize`/`u64` arithmetic is modelled with `Nat`.  The only machine
  arithmetic the table logic depends on is `hasher.finish() as usize %
  capacity`, which we model by giving every table a `hashFn : K → Nat`
  field (the deterministic value of `DefaultHasher::finish` on each key)
  and reducing it modulo the capacity exactly as the source does.
* The load-factor comparison `size as f64 / capacity as f64 >= 0.7` is
  modelled as `7 * capacity ≤ 10 * size`.  Both `size` and `capacity` are
  exactly representable in `f64`, the quotient is correctly rounded, and
  capacities are powers of two, so `size / capacity` never equals the
  rational 7/10 exactly and the two comparisons agree for every state the
  program can reach.
* Probe loops `loop { ...; if current_index == index { ... } }` advance by
  `+1 % capacity` and stop when the index wraps to its start, i.e. after
  examining exactly `capacity` slots.  They are embedded as structural
  recursion on a fuel argument that starts at `capacity`; fuel hitting 0
  is precisely the wrap-around exit of the source loop.
* Fallible operations return the post-call state together with a success
  flag (`… × Bool`), because Rust methods mutate through `&mut self` and
  an `Err` return still leaves a (possibly modified) table behind.  The
  `while` loop inside `resize`, which has no wrap-around check in the
  source and would spin forever on a full table, is modelled with an
  `Option`: `none` is divergence, not an error return.
* Out-of-range `Vec` indexing panics in Rust; the corresponding branches
  of the embedding return the designated failure value.  All claims are
  stated with the well-formedness facts (lengths equal to capacity,
  capacity positive) that every table produced by `new` maintains, so
  these branches are never taken in any proof.
-/

set_option autoImplicit false
set_option maxRecDepth 40000

namespace Hashmap

/-! ### Generic list-access helpers -/

theorem lget_set_same {α : Type} :
    ∀ (l : List α) (i : Nat) (a : α), i < l.length → (l.set i a).get? i = some a := by
  intro l
  induction l with
  | nil => intro i a h; simp at h
  | cons x t ih =>
    intro i a h
    cases i with
    | zero => rfl
    | succ j =>
      simp only [List.set, List.get?]
      exact ih j a (by simpa using h)

theorem lget_set_other {α : Type} :
    ∀ (l : List α) (i j : Nat) (a : α), i ≠ j → (l.set i a).get? j = l.get? j := by
  intro l
  induction l with
  | nil => intro i j a _; simp
  | cons x t ih =>
    intro i j a hij
    cases i with
    | zero =>
      cases j with
      | zero => exact absurd rfl hij
      | succ j' => rfl
    | succ i' =>
      cases j with
      | zero => rfl
      | succ j' =>
        simp only [List.set, List.get?]
        exact ih i' j' a (fun h => hij (by rw [h]))

theorem lget_lt {α : Type} :
    ∀ (l : List α) (i : Nat), i < l.length → ∃ a, l.get? i = some a := by
  intro l
  induction l with
  | nil => intro i h; simp at h
  | cons x t ih =>
    intro i h
    cases i with
    | zero => exact ⟨x, rfl⟩
    | succ j => exact ih j (by simpa using h)

theorem lget_some_lt {α : Type} :
    ∀ (l : List α) (i : Nat) (a : α), l.get? i = some a → i < l.length := by
  intro l
  induction l with
  | nil => intro i a h; simp [List.get?] at h
  | cons x t ih =>
    intro i a h
    cases i with
    | zero => simp
    | succ j =>
      have := ih j a h
      simp
      omega

theorem lget_replicate {α : Type} (n i : Nat) (a : α) (h : i < n) :
    (List.replicate n a).get? i = some a := by
  induction n generalizing i with
  | zero => omega
  | succ m ih =>
    cases i with
    | zero => rfl
    | succ j =>
      simpa [List.replicate] using ih j (by omega)

/-! ### Capacity rounding: `16.max(capacity.next_power_of_two())`

`next_power_of_two` on `usize` returns the smallest power of two greater
than or equal to its argument (and `1` for argument `0`).  We compute it
by doubling an accumulator, with the argument itself as (ample) fuel. -/

def pow2geAux (n : Nat) : Nat → Nat → Nat
  | 0, acc => acc
  | f + 1, acc => if n ≤ acc then acc else pow2geAux n f (2 * acc)

def pow2ge (n : Nat) : Nat := pow2geAux n n 1

/-- The capacity chosen by every engine's `new`. -/
def newCapacity (n : Nat) : Nat := max 16 (pow2ge n)

theorem pow2geAux_pow (n : Nat) :
    ∀ (f : Nat) (acc : Nat), (∃ e, acc = 2 ^ e) → ∃ e, pow2geAux n f acc = 2 ^ e := by
  intro f
  induction f with
  | zero => intro acc h; exact h
  | succ g ih =>
    intro acc h
    by_cases hle : n ≤ acc
    · simpa [pow2geAux, hle] using h
    · have : ∃ e, 2 * acc = 2 ^ e := by
        obtain ⟨e, he⟩ := h
        exact ⟨e + 1, by rw [he]; ring⟩
      simpa [pow2geAux, hle] using ih (2 * acc) this

theorem pow2geAux_ge (n : Nat) :
    ∀ (f : Nat) (acc : Nat), 0 < acc → n ≤ 2 ^ f * acc → n ≤ pow2geAux n f acc := by
  intro f
  induction f with
  | zero =>
    intro acc _ h
    simpa [pow2geAux] using (by simpa using h : n ≤ acc)
  | succ g ih =>
    intro acc hpos h
    by_cases hle : n ≤ acc
    · simp [pow2geAux, hle]
    · have h2 : n ≤ 2 ^ g * (2 * acc) := by
        calc n ≤ 2 ^ (g + 1) * acc := h
        _ = 2 ^ g * (2 * acc) := by ring
      simpa [pow2geAux, hle] using ih (2 * acc) (by omega) h2

theorem pow2geAux_min (n : Nat) :
    ∀ (f : Nat) (acc : Nat) (p : Nat) (e e' : Nat), acc = 2 ^ e → p = 2 ^ e' →
      n ≤ p → acc ≤ p → pow2geAux n f acc ≤ p := by
  intro f
  induction f with
  | zero => intro acc p e e' _ _ _ h; simpa [pow2geAux] using h
  | succ g ih =>
    intro acc p e e' hacc hp hnp haccp
    by_cases hle : n ≤ acc
    · simpa [pow2geAux, hle] using haccp
    · have hlt : acc < p := by
        have : acc < n := Nat.lt_of_not_le hle
        omega
      have hee : e < e' := by
        have := hacc ▸ hp ▸ hlt
        exact (Nat.pow_lt_pow_iff_right (by omega)).mp this
      have h2acc : 2 * acc ≤ p := by
        rw [hacc, hp]
        calc 2 * 2 ^ e = 2 ^ (e + 1) := by ring
        _ ≤ 2 ^ e' := Nat.pow_le_pow_right (by omega) (by omega)
      simpa [pow2geAux, hle] using ih (2 * acc) p (e + 1) e' (by rw [hacc]; ring) hp hnp h2acc

theorem pow2ge_spec (n : Nat) :
    (∃ e, pow2ge n = 2 ^ e) ∧ n ≤ pow2ge n ∧
      ∀ p e', p = 2 ^ e' → n ≤ p → pow2ge n ≤ p := by
  refine ⟨pow2geAux_pow n n 1 ⟨0, rfl⟩, ?_, ?_⟩
  · exact pow2geAux_ge n n 1 (by omega) (by
      have : n ≤ 2 ^ n := Nat.le_of_lt (Nat.lt_two_pow n)
      simpa using this)
  · intro p e' hp hnp
    have hp1 : 1 ≤ p := by rw [hp]; exact Nat.one_le_two_pow
    exact pow2geAux_min n n 1 p 0 e' (by norm_num) hp hnp hp1

/-! ### Slot representation of the plain open-addressing engine -/

inductive Entry (K V : Type) where
  | empty : Entry K V
  | deleted (k : K) : Entry K V
  | occupied (k : K) (v : V) : Entry K V
  deriving DecidableEq

/-! ### Plain open-addressing engine (src/open_addressing.rs) -/

structure OAMap (K V : Type) where
  hashFn : K → Nat
  data : List (Entry K V)
  capacity : Nat
  size : Nat

variable {K V : Type}

def oaNew (hf : K → Nat) (capacity : Nat) : OAMap K V :=
  { hashFn := hf
    data := List.replicate (newCapacity capacity) Entry.empty
    capacity := newCapacity capacity
    size := 0 }

def oaHash (m : OAMap K V) (k : K) : Nat := m.hashFn k % m.capacity

/-- `HashMap::get` probe loop.  Outer `none` is the `bail!` on an
out-of-range slot read (impossible for well-formed tables). -/
def oaGetLoop [DecidableEq K] (m : OAMap K V) (k : K) : Nat → Nat → Option (Option V)
  | 0, _ => some none
  | f + 1, ci =>
    match m.data.get? ci with
    | none => none
    | some Entry.empty => some none
    | some (Entry.occupied k' v) =>
        if k' = k then some (some v) else oaGetLoop m k f ((ci + 1) % m.capacity)
    | some (Entry.deleted _) => oaGetLoop m k f ((ci + 1) % m.capacity)

def oaGet [DecidableEq K] (m : OAMap K V) (k : K) : Option (Option V) :=
  oaGetLoop m k m.capacity (oaHash m k)

/-- `HashMap::insert` probe loop.  Note that the `Occupied` arm of the
source advances without comparing keys, so this engine never upserts. -/
def oaInsertLoop (m : OAMap K V) (k : K) (v : V) : Nat → Nat → OAMap K V × Bool
  | 0, _ => (m, false)
  | f + 1, ci =>
    match m.data.get? ci with
    | none => (m, false)
    | some Entry.empty =>
        ({ m with data := m.data.set ci (Entry.occupied k v), size := m.size + 1 }, true)
    | some (Entry.deleted _) =>
        ({ m with data := m.data.set ci (Entry.occupied k v), size := m.size + 1 }, true)
    | some (Entry.occupied _ _) => oaInsertLoop m k v f ((ci + 1) % m.capacity)

/-- The `while let Some(Entry::Occupied(..))` placement scan inside
`resize`; it has no wrap-around check, so exhausted fuel (`none`) models
divergence on a full table. -/
def oaFindSlot (data : List (Entry K V)) (cap : Nat) : Nat → Nat → Option Nat
  | 0, _ => none
  | f + 1, i =>
    match data.get? i with
    | some (Entry.occupied _ _) => oaFindSlot data cap f ((i + 1) % cap)
    | _ => some i

/-- One step of the re-insertion loop of `resize`: an `Occupied` entry is
placed at the first non-occupied slot of its probe sequence in the fresh
array; `Empty` and `Deleted` entries are dropped. -/
def oaResizeStep (hf : K → Nat) (cap' : Nat)
    (acc : Option (List (Entry K V))) (e : Entry K V) : Option (List (Entry K V)) :=
  acc.bind fun d =>
    match e with
    | Entry.occupied k v =>
        (oaFindSlot d cap' cap' (hf k % cap')).map fun j => d.set j (Entry.occupied k v)
    | _ => some d

def oaResize (m : OAMap K V) : Option (OAMap K V) :=
  let cap' := 2 * m.capacity
  (m.data.foldl (oaResizeStep m.hashFn cap')
      (some (List.replicate cap' Entry.empty))).map
    fun d => { m with data := d, capacity := cap' }

def oaInsert (m : OAMap K V) (k : K) (v : V) : Option (OAMap K V × Bool) :=
  if 7 * m.capacity ≤ 10 * m.size then
    (oaResize m).map fun m1 => oaInsertLoop m1 k v m1.capacity (oaHash m1 k)
  else
    some (oaInsertLoop m k v m.capacity (oaHash m k))

/-- `HashMap::delete` probe loop.  A `Deleted` slot whose stale key equals
the argument ends the search successfully; wrap-around is the
"cannot be found, so it was not deleted" error. -/
def oaDeleteLoop [DecidableEq K] (m : OAMap K V) (k : K) : Nat → Nat → OAMap K V × Bool
  | 0, _ => (m, false)
  | f + 1, ci =>
    match m.data.get? ci with
    | none => (m, false)
    | some Entry.empty => (m, true)
    | some (Entry.deleted k') =>
        if k' = k then (m, true) else oaDeleteLoop m k f ((ci + 1) % m.capacity)
    | some (Entry.occupied k' _) =>
        if k' = k then
          ({ m with data := m.data.set ci (Entry.deleted k), size := m.size - 1 }, true)
        else oaDeleteLoop m k f ((ci + 1) % m.capacity)

def oaDelete [DecidableEq K] (m : OAMap K V) (k : K) : OAMap K V × Bool :=
  oaDeleteLoop m k m.capacity (oaHash m k)

/-! ### Chained engine (src/chaining.rs)

The owned singly-linked bucket list is embedded as a `List (K × V)`
(head first, matching iteration order of the source list). -/

def listGet [DecidableEq K] : List (K × V) → K → Option V
  | [], _ => none
  | (k', v') :: t, k => if k' = k then some v' else listGet t k

/-- `LinkedList::insert`: returns `true` iff the key was new;
an existing key has its value overwritten in place. -/
def listInsert [DecidableEq K] : List (K × V) → K → V → Bool × List (K × V)
  | [], k, v => (true, [(k, v)])
  | (k', v') :: t, k, v =>
    if k' = k then (false, (k', v) :: t)
    else
      let r := listInsert t k v
      (r.1, (k', v') :: r.2)

/-- `LinkedList::delete`: splice out the first entry with a matching key. -/
def listDelete [DecidableEq K] : List (K × V) → K → List (K × V)
  | [], _ => []
  | (k', v') :: t, k => if k' = k then t else (k', v') :: listDelete t k

structure ChMap (K V : Type) where
  hashFn : K → Nat
  buckets : List (List (K × V))
  size : Nat
  capacity : Nat

def chNew (hf : K → Nat) (capacity : Nat) : ChMap K V :=
  { hashFn := hf
    buckets := List.replicate (newCapacity capacity) []
    size := 0
    capacity := newCapacity capacity }

def chHash (m : ChMap K V) (k : K) : Nat := m.hashFn k % m.capacity

/-- `HashMap::get` for chaining; `self.buckets[index]` panics when the
index is out of range (outer `none`). -/
def chGet [DecidableEq K] (m : ChMap K V) (k : K) : Option (Option V) :=
  (m.buckets.get? (chHash m k)).map fun b => listGet b k

/-- The post-resize body of `HashMap::insert`: `buckets.get_mut(index)`
returning `None` silently succeeds without inserting. -/
def chInsertCore [DecidableEq K] (m : ChMap K V) (k : K) (v : V) : ChMap K V :=
  match m.buckets.get? (chHash m k) with
  | none => m
  | some b =>
    let r := listInsert b k v
    { m with
        buckets := m.buckets.set (chHash m k) r.2
        size := if r.1 then m.size + 1 else m.size }

/-- Bucket contents in the iteration order of `resize`
(bucket index order, each list front to back). -/
def chEntries (m : ChMap K V) : List (K × V) := m.buckets.flatten

def chResizeBase (m : ChMap K V) : ChMap K V :=
  { m with
      buckets := List.replicate (2 * m.capacity) []
      capacity := 2 * m.capacity
      size := 0 }

/-- `HashMap::insert`, with fuel bounding the depth of nested `resize`
calls (`resize` re-inserts through the full `insert`, which re-checks the
load factor).  `none` means the recursion depth was exhausted; every
reachable call returns `some`. -/
def chInsertF [DecidableEq K] : Nat → ChMap K V → K → V → Option (ChMap K V)
  | 0, _, _, _ => none
  | f + 1, m, k, v =>
    let pre : Option (ChMap K V) :=
      if 7 * m.capacity ≤ 10 * m.size then
        List.foldlM (fun acc (p : K × V) => chInsertF f acc p.1 p.2) (chResizeBase m)
          (chEntries m)
      else some m
    pre.map fun m1 => chInsertCore m1 k v

/-- `HashMap::delete` for chaining: always `Ok`, never touches `size`. -/
def chDelete [DecidableEq K] (m : ChMap K V) (k : K) : ChMap K V :=
  match m.buckets.get? (chHash m k) with
  | none => m
  | some b => { m with buckets := m.buckets.set (chHash m k) (listDelete b k) }

/-! ### Compact open-addressing engine (src/open_addressing_compact.rs)

Status codes: `00 = EMPTY`, `01 = DELETED`, `11 = OCCUPIED`, packed four
per byte.  `status_bits` is the byte vector; every byte written by the
program is `< 256`. -/

/-- `get_status` on a raw byte list. -/
def statGet (sb : List Nat) (i : Nat) : Nat :=
  match sb.get? (i / 4) with
  | some b => (b >>> ((i % 4) * 2)) &&& 3
  | none => 0

/-- `set_status` on a raw byte list: clear the two target bits
(`&= !(0b11 << off)`, with `!` the u8 complement `255 ^^^ ·`), then OR in
the new code. -/
def statSet (sb : List Nat) (i s : Nat) : List Nat :=
  match sb.get? (i / 4) with
  | some b =>
    sb.set (i / 4)
      ((b &&& (255 ^^^ (3 <<< ((i % 4) * 2)))) ||| ((s &&& 3) <<< ((i % 4) * 2)))
  | none => sb

/-- The clear-free OR write used on the fresh status bytes in `resize`. -/
def statOr (sb : List Nat) (i s : Nat) : List Nat :=
  match sb.get? (i / 4) with
  | some b => sb.set (i / 4) (b ||| (s <<< ((i % 4) * 2)))
  | none => sb

structure CMap (K V : Type) where
  hashFn : K → Nat
  status_bits : List Nat
  entries : List (K × V)
  capacity : Nat
  size : Nat

def cNew [Inhabited K] [Inhabited V] (hf : K → Nat) (capacity : Nat) : CMap K V :=
  { hashFn := hf
    status_bits := List.replicate ((newCapacity capacity + 3) / 4) 0
    entries := List.replicate (newCapacity capacity) (default, default)
    capacity := newCapacity capacity
    size := 0 }

def cHash (m : CMap K V) (k : K) : Nat := m.hashFn k % m.capacity

def cGetStatus (m : CMap K V) (i : Nat) : Nat := statGet m.status_bits i

def cSetStatus (m : CMap K V) (i s : Nat) : CMap K V :=
  { m with status_bits := statSet m.status_bits i s }

/-- `HashMap::get` for the compact engine.  Outer `none` models a panic:
either `entries[i]` out of range or the `unreachable!` arm on status
code `10`. -/
def cGetLoop [DecidableEq K] (m : CMap K V) (k : K) : Nat → Nat → Option (Option V)
  | 0, _ => some none
  | f + 1, ci =>
    let s := cGetStatus m ci
    if s = 0 then some none
    else if s = 3 then
      match m.entries.get? ci with
      | none => none
      | some (k', v) =>
          if k' = k then some (some v) else cGetLoop m k f ((ci + 1) % m.capacity)
    else if s = 1 then cGetLoop m k f ((ci + 1) % m.capacity)
    else none

def cGet [DecidableEq K] (m : CMap K V) (k : K) : Option (Option V) :=
  cGetLoop m k m.capacity (cHash m k)

/-- `HashMap::insert` probe loop for the compact engine: explicit upsert
on a matching occupied slot (`entries[i].1 = value`, status and size
untouched); first `EMPTY | DELETED` slot is claimed otherwise. -/
def cInsertLoop [DecidableEq K] (m : CMap K V) (k : K) (v : V) : Nat → Nat → CMap K V × Bool
  | 0, _ => (m, false)
  | f + 1, ci =>
    let s := cGetStatus m ci
    if s = 0 ∨ s = 1 then
      ({ m with
          entries := m.entries.set ci (k, v)
          status_bits := statSet m.status_bits ci 3
          size := m.size + 1 }, true)
    else if s = 3 then
      match m.entries.get? ci with
      | none => (m, false)
      | some (k', _) =>
          if k' = k then ({ m with entries := m.entries.set ci (k', v) }, true)
          else cInsertLoop m k v f ((ci + 1) % m.capacity)
    else (m, false)

/-- The `while … == OCCUPIED` placement scan inside the compact `resize`. -/
def cFindSlot (sb : List Nat) (cap : Nat) : Nat → Nat → Option Nat
  | 0, _ => none
  | f + 1, i => if statGet sb i = 3 then cFindSlot sb cap f ((i + 1) % cap) else some i

def cResizeStep (m : CMap K V) (cap' : Nat)
    (acc : Option (List Nat × List (K × V))) (i : Nat) :
    Option (List Nat × List (K × V)) :=
  acc.bind fun p =>
    if cGetStatus m i = 3 then
      match m.entries.get? i with
      | none => none
      | some kv =>
          (cFindSlot p.1 cap' cap' (m.hashFn kv.1 % cap')).map fun j =>
            (statOr p.1 j 3, p.2.set j kv)
    else some p

/-- `HashMap::resize` for the compact engine: fresh zeroed status bytes
and default-filled entries at double capacity; only `OCCUPIED` old slots
are re-placed (tombstones and empties dropped).  The `mem::take` of each
old entry is omitted because each old index is read exactly once. -/
def cResize [Inhabited K] [Inhabited V] (m : CMap K V) : Option (CMap K V) :=
  let cap' := m.capacity * 2
  ((List.range m.capacity).foldl (cResizeStep m cap')
      (some (List.replicate ((cap' + 3) / 4) 0, List.replicate cap' (default, default)))).map
    fun p => { m with status_bits := p.1, entries := p.2, capacity := cap' }

def cInsert [DecidableEq K] [Inhabited K] [Inhabited V] (m : CMap K V) (k : K) (v : V) :
    Option (CMap K V × Bool) :=
  if 7 * m.capacity ≤ 10 * m.size then
    (cResize m).map fun m1 => cInsertLoop m1 k v m1.capacity (cHash m1 k)
  else
    some (cInsertLoop m k v m.capacity (cHash m k))

/-- `HashMap::delete` for the compact engine: only an `EMPTY` slot ends an
unsuccessful search with `Ok`; wrap-around is the "Key not found" error. -/
def cDeleteLoop [DecidableEq K] (m : CMap K V) (k : K) : Nat → Nat → CMap K V × Bool
  | 0, _ => (m, false)
  | f + 1, ci =>
    let s := cGetStatus m ci
    if s = 0 then (m, true)
    else if s = 3 then
      match m.entries.get? ci with
      | none => (m, false)
      | some (k', _) =>
          if k' = k then
            ({ m with status_bits := statSet m.status_bits ci 1, size := m.size - 1 }, true)
          else cDeleteLoop m k f ((ci + 1) % m.capacity)
    else if s = 1 then cDeleteLoop m k f ((ci + 1) % m.capacity)
    else (m, false)

def cDelete [DecidableEq K] (m : CMap K V) (k : K) : CMap K V × Bool :=
  cDeleteLoop m k m.capacity (cHash m k)

/-! ### Well-formedness

Facts every table produced by `new` (and preserved by all operations)
satisfies; claims are stated with these hypotheses spelled out. -/

def OAWf (m : OAMap K V) : Prop := 0 < m.capacity ∧ m.data.length = m.capacity

def ChWf (m : ChMap K V) : Prop := 0 < m.capacity ∧ m.buckets.length = m.capacity

def CWf (m : CMap K V) : Prop :=
  0 < m.capacity ∧ m.entries.length = m.capacity ∧
    m.status_bits.length = (m.capacity + 3) / 4 ∧ ∀ b ∈ m.status_bits, b < 256

instance (m : OAMap K V) : Decidable (OAWf m) := by unfold OAWf; infer_instance

instance (m : ChMap K V) : Decidable (ChWf m) := by unfold ChWf; infer_instance

instance (m : CMap K V) : Decidable (CWf m) := by unfold CWf; infer_instance

/-! ### Slot predicates used to state claims about probe sequences -/

def isOccB : Entry K V → Bool
  | Entry.occupied _ _ => true
  | _ => false

/-- The slot holds some key-value pair whose key differs from `k`. -/
def entryOccNe [DecidableEq K] (k : K) : Option (Entry K V) → Bool
  | some (Entry.occupied k' _) => decide (k' ≠ k)
  | _ => false

/-- The slot does not hold `k` (it may be empty, a tombstone, or occupied
by a different key). -/
def entryNotOcc [DecidableEq K] (k : K) : Option (Entry K V) → Bool
  | some (Entry.occupied k' _) => decide (k' ≠ k)
  | some _ => true
  | none => false

/-- Compact slot `j` is occupied by a key different from `k`. -/
def cOccNe [DecidableEq K] (m : CMap K V) (k : K) (j : Nat) : Bool :=
  decide (cGetStatus m j = 3) &&
    (match m.entries.get? j with
     | some (k', _) => decide (k' ≠ k)
     | none => false)

/-- Compact slot `j` has a valid status and does not hold `k` as a live key. -/
def cNotOcc [DecidableEq K] (m : CMap K V) (k : K) (j : Nat) : Bool :=
  if cGetStatus m j = 0 ∨ cGetStatus m j = 1 then true
  else if cGetStatus m j = 3 then
    match m.entries.get? j with
    | some (k', _) => decide (k' ≠ k)
    | none => false
  else false

/-- Keys of the occupied slots, in slot order. -/
def occKeys : List (Entry K V) → List K :=
  List.filterMap fun e =>
    match e with
    | Entry.occupied k _ => some k
    | _ => none

def occCount (d : List (Entry K V)) : Nat := d.countP isOccB

/-- Number of `OCCUPIED` status codes among the first `cap` compact slots. -/
def statCount (sb : List Nat) (cap : Nat) : Nat :=
  (List.range cap).countP fun p => decide (statGet sb p = 3)

/-- Total number of bucket entries of the chained table. -/
def chEntryCount (m : ChMap K V) : Nat := (m.buckets.map List.length).sum

/-- Inductive invariant of the chained engine: capacity at least 2 (it is
in fact always ≥ 16), buckets array of length `capacity`, load factor
below 0.7 + 1/capacity, and `size` at least the number of stored entries
(`delete` never decrements `size`, so `size` may overcount). -/
def ChInv (m : ChMap K V) : Prop :=
  2 ≤ m.capacity ∧ m.buckets.length = m.capacity ∧
    10 * m.size ≤ 7 * m.capacity + 9 ∧ chEntryCount m ≤ m.size

instance (m : ChMap K V) : Decidable (ChInv m) := by unfold ChInv; infer_instance

/-! ### States reachable through the public operations -/

inductive OAReach [DecidableEq K] : OAMap K V → Prop where
  | new (hf : K → Nat) (n : Nat) : OAReach (oaNew hf n)
  | ins (m m' : OAMap K V) (b : Bool) (k : K) (v : V) :
      OAReach m → oaInsert m k v = some (m', b) → OAReach m'
  | del (m : OAMap K V) (k : K) : OAReach m → OAReach (oaDelete m k).1

inductive ChReach [DecidableEq K] : ChMap K V → Prop where
  | new (hf : K → Nat) (n : Nat) : ChReach (chNew hf n)
  | ins (f : Nat) (m m' : ChMap K V) (k : K) (v : V) :
      ChReach m → chInsertF f m k v = some m' → ChReach m'
  | del (m : ChMap K V) (k : K) : ChReach m → ChReach (chDelete m k)

inductive CReach [DecidableEq K] [Inhabited K] [Inhabited V] : CMap K V → Prop where
  | new (hf : K → Nat) (n : Nat) : CReach (cNew hf n)
  | ins (m m' : CMap K V) (b : Bool) (k : K) (v : V) :
      CReach m → cInsert m k v = some (m', b) → CReach m'
  | del (m : CMap K V) (k : K) : CReach m → CReach (cDelete m k).1

/-! ### Concrete states used by counterexamples and witnesses -/

/-- Plain engine, fresh table. -/
def c1pm0 : OAMap Nat Nat := oaNew (fun k => k) 16

/-- After `insert(5, 1)`. -/
def c1pm1 : OAMap Nat Nat := ((oaInsert c1pm0 5 1).getD (c1pm0, false)).1

/-- After a second `insert(5, 2)`: the plain engine never upserts, so key
5 now occupies two slots. -/
def c1pm2 : OAMap Nat Nat := ((oaInsert c1pm1 5 2).getD (c1pm1, false)).1

/-- Compact engine with a constant hash, to route every key through
slot 0. -/
def c1cm0 : CMap Nat Nat := cNew (fun _ => 0) 16

def c1cm1 : CMap Nat Nat := ((cInsert c1cm0 0 10).getD (c1cm0, false)).1

def c1cm2 : CMap Nat Nat := ((cInsert c1cm1 5 1).getD (c1cm1, false)).1

/-- After `delete(0)`: slot 0 is a tombstone in front of key 5's slot. -/
def c1cm3 : CMap Nat Nat := (cDelete c1cm2 0).1

/-- Re-inserting key 5 lands on the tombstone at slot 0, duplicating the
key: `size` stays 2 although only key 5 is live. -/
def c1cm4 : CMap Nat Nat := ((cInsert c1cm3 5 2).getD (c1cm3, false)).1

/-- Twelve inserts of distinct keys into a fresh chained table of
capacity 16; each check `11/16 ≥ 0.7` and below fails, so no resize, and
the final state has load factor 12/16 = 0.75 > 0.7. -/
def c2cexRes : Option (ChMap Nat Nat) :=
  List.foldlM (fun m i => chInsertF 1 m i i) (chNew (fun k => k) 16) (List.range 12)

def c2cexMap : ChMap Nat Nat := c2cexRes.getD (chNew (fun k => k) 16)

/-- A full table whose `size` field does not trigger the load-factor
guard: the defensive wrap-around check in `insert` must fire. -/
def full4 : OAMap Nat Nat :=
  { hashFn := fun _ => 0
    data := [Entry.occupied 1 1, Entry.occupied 2 2, Entry.occupied 3 3, Entry.occupied 4 4]
    capacity := 4
    size := 0 }

/-- Compact analogue of `full4`: all four statuses `11`, keys 1..4. -/
def cfull4 : CMap Nat Nat :=
  { hashFn := fun _ => 0
    status_bits := [255]
    entries := [(1, 1), (2, 2), (3, 3), (4, 4)]
    capacity := 4
    size := 0 }

/-- Chained table after one insert, for round-trip witnesses. -/
def c1wch : ChMap Nat Nat :=
  (chInsertF 1 (chNew (fun _ => 0) 16) 3 7).getD (chNew (fun _ => 0) 16)

/-- The same table after re-inserting key 3 with a new value. -/
def c1wch2 : ChMap Nat Nat := (chInsertF 1 c1wch 3 9).getD c1wch

/-- Chained table with one bucket holding a duplicate-key chain. -/
def c7m : ChMap Nat Nat :=
  { hashFn := fun _ => 0
    buckets := [(1, 10), (2, 20), (1, 30)] :: List.replicate 15 []
    size := 3
    capacity := 16 }

/-- Distinctness of the keys of the occupied compact slots, stated
positionally (and decidably). -/
def CKeysDistinct [DecidableEq K] (m : CMap K V) : Prop :=
  ∀ p, p < m.capacity → ∀ q, q < m.capacity → p ≠ q →
    cGetStatus m p = 3 → cGetStatus m q = 3 →
    (m.entries.get? p).map Prod.fst ≠ (m.entries.get? q).map Prod.fst

instance [DecidableEq K] (m : CMap K V) : Decidable (CKeysDistinct m) :=
  Nat.decidableBallLT m.capacity fun p _ =>
    ∀ q, q < m.capacity → p ≠ q → cGetStatus m p = 3 → cGetStatus m q = 3 →
      (m.entries.get? p).map Prod.fst ≠ (m.entries.get? q).map Prod.fst

/-- Plain table with a tombstone in front of live keys, used to exercise
the resize theorem. -/
def c5pm : OAMap Nat Nat :=
  { hashFn := fun k => k
    data := [Entry.occupied 1 11, Entry.deleted 9, Entry.occupied 2 22, Entry.empty,
             Entry.empty, Entry.empty, Entry.empty, Entry.empty]
    capacity := 8
    size := 2 }

/-- Compact table with statuses `11 01 11 00 …` (slots 0 and 2 occupied,
slot 1 a tombstone). -/
def c5cm : CMap Nat Nat :=
  { hashFn := fun k => k
    status_bits := [55, 0]
    entries := [(1, 11), (9, 99), (2, 22), (0, 0), (0, 0), (0, 0), (0, 0), (0, 0)]
    capacity := 8
    size := 2 }

/-! ## Probe-position arithmetic -/

theorem probe_shift (ci u cap : Nat) :
    ((ci + 1) % cap + u) % cap = (ci + (u + 1)) % cap := by
  rw [Nat.mod_add_mod]
  congr 1
  omega

theorem probe_ne {ci u t cap : Nat} (hu : u < t) (ht : t < cap) :
    (ci + u) % cap ≠ (ci + t) % cap := by
  intro h
  have hmod : (ci + u) ≡ (ci + t) [MOD cap] := h
  have hdvd : cap ∣ (ci + t) - (ci + u) := (Nat.modEq_iff_dvd' (by omega)).mp hmod
  have : (ci + t) - (ci + u) = t - u := by omega
  rw [this] at hdvd
  have := Nat.le_of_dvd (by omega) hdvd
  omega

theorem probe_surj {start p cap : Nat} (hcap : 0 < cap) (hp : p < cap) :
    ∃ t, t < cap ∧ (start + t) % cap = p := by
  by_cases h : start % cap ≤ p
  · refine ⟨p - start % cap, by omega, ?_⟩
    have h1 : (start + (p - start % cap)) % cap = (start % cap + (p - start % cap)) % cap := by
      rw [Nat.mod_add_mod]
    rw [h1]
    have h2 : start % cap + (p - start % cap) = p := by omega
    rw [h2, Nat.mod_eq_of_lt hp]
  · have hlt : start % cap < cap := Nat.mod_lt _ hcap
    refine ⟨cap + p - start % cap, by omega, ?_⟩
    have h1 : (start + (cap + p - start % cap)) % cap
        = (start % cap + (cap + p - start % cap)) % cap := by
      rw [Nat.mod_add_mod]
    rw [h1]
    have h2 : start % cap + (cap + p - start % cap) = cap + p := by omega
    rw [h2]
    simp [Nat.add_mod_left, Nat.mod_eq_of_lt hp]

/-! ## Byte-level facts about the 2-bit status codes

All bytes the compact engine ever stores are `< 256`; the four 2-bit
lanes of a byte are `r * 2` for `r = i % 4 < 4`.  These finite facts are
established by exhaustive evaluation. -/

theorem bitSetGetEq : ∀ b < 256, ∀ s < 4, ∀ r < 4,
    (((b &&& (255 ^^^ (3 <<< (r * 2)))) ||| ((s &&& 3) <<< (r * 2))) >>> (r * 2)) &&& 3 = s := by
  decide

theorem bitSetGetNe : ∀ b < 256, ∀ s < 4, ∀ r1 < 4, ∀ r2 < 4, r1 ≠ r2 →
    (((b &&& (255 ^^^ (3 <<< (r1 * 2)))) ||| ((s &&& 3) <<< (r1 * 2))) >>> (r2 * 2)) &&& 3
      = (b >>> (r2 * 2)) &&& 3 := by
  decide

theorem bitSetLt : ∀ b < 256, ∀ s < 4, ∀ r < 4,
    (b &&& (255 ^^^ (3 <<< (r * 2)))) ||| ((s &&& 3) <<< (r * 2)) < 256 := by
  decide

theorem bitOrGetEq : ∀ b < 256, ∀ r < 4, (b >>> (r * 2)) &&& 3 = 0 →
    ((b ||| (3 <<< (r * 2))) >>> (r * 2)) &&& 3 = 3 := by
  decide

theorem bitOrGetNe : ∀ b < 256, ∀ r1 < 4, ∀ r2 < 4, r1 ≠ r2 →
    ((b ||| (3 <<< (r1 * 2))) >>> (r2 * 2)) &&& 3 = (b >>> (r2 * 2)) &&& 3 := by
  decide

theorem bitOrLt : ∀ b < 256, b ||| (3 <<< ((3 % 4) * 2)) < 256 := by
  decide

/-! ## Status-array lemmas -/

theorem statSet_length (sb : List Nat) (i s : Nat) : (statSet sb i s).length = sb.length := by
  unfold statSet
  cases h : sb.get? (i / 4) <;> simp

theorem statOr_length (sb : List Nat) (i s : Nat) : (statOr sb i s).length = sb.length := by
  unfold statOr
  cases h : sb.get? (i / 4) <;> simp

theorem statSet_bytes_lt (sb : List Nat) (i s : Nat) (hs : s < 4)
    (hb : ∀ b ∈ sb, b < 256) : ∀ b ∈ statSet sb i s, b < 256 := by
  unfold statSet
  cases h : sb.get? (i / 4) with
  | none => exact hb
  | some b0 =>
    intro b hbmem
    have hb0 : b0 < 256 := hb b0 (List.get?_mem h)
    rcases List.mem_or_eq_of_mem_set hbmem with hmem | heq
    · exact hb b hmem
    · subst heq
      exact bitSetLt b0 hb0 s hs (i % 4) (Nat.mod_lt _ (by omega))

theorem statGet_statSet_eq (sb : List Nat) (i s : Nat) (hs : s < 4)
    (hlen : i / 4 < sb.length) (hb : ∀ b ∈ sb, b < 256) :
    statGet (statSet sb i s) i = s := by
  obtain ⟨b0, hb0⟩ := lget_lt sb (i / 4) hlen
  have hblt : b0 < 256 := hb b0 (List.get?_mem hb0)
  unfold statSet statGet
  rw [hb0]
  rw [lget_set_same _ _ _ (by simpa using hlen)]
  exact bitSetGetEq b0 hblt s hs (i % 4) (Nat.mod_lt _ (by omega))

theorem statGet_statSet_ne (sb : List Nat) (i j s : Nat) (hs : s < 4)
    (hne : i ≠ j) (hb : ∀ b ∈ sb, b < 256) :
    statGet (statSet sb i s) j = statGet sb j := by
  unfold statSet statGet
  cases hb0 : sb.get? (i / 4) with
  | none => rfl
  | some b0 =>
    have hblt : b0 < 256 := hb b0 (List.get?_mem hb0)
    by_cases hbyte : i / 4 = j / 4
    · have hmod : i % 4 ≠ j % 4 := fun h => hne (by omega)
      simp only [← hbyte]
      rw [lget_set_same _ _ _ (lget_some_lt _ _ _ hb0), hb0]
      exact bitSetGetNe b0 hblt s hs (i % 4) (Nat.mod_lt _ (by omega)) (j % 4)
        (Nat.mod_lt _ (by omega)) hmod
    · rw [lget_set_other _ _ _ _ hbyte]

theorem statOr_bytes_lt (sb : List Nat) (i : Nat)
    (hb : ∀ b ∈ sb, b < 256) : ∀ b ∈ statOr sb i 3, b < 256 := by
  unfold statOr
  cases h : sb.get? (i / 4) with
  | none => exact hb
  | some b0 =>
    intro b hbmem
    have hb0 : b0 < 256 := hb b0 (List.get?_mem h)
    rcases List.mem_or_eq_of_mem_set hbmem with hmem | heq
    · exact hb b hmem
    · subst heq
      have h256 : (3 : Nat) <<< (i % 4 * 2) < 256 := by
        have : i % 4 < 4 := Nat.mod_lt _ (by omega)
        interval_cases h : (i % 4) <;> decide
      exact Nat.or_lt_two_pow (n := 8) hb0 h256

theorem statGet_statOr_eq (sb : List Nat) (i : Nat)
    (hlen : i / 4 < sb.length) (hb : ∀ b ∈ sb, b < 256)
    (hzero : statGet sb i = 0) :
    statGet (statOr sb i 3) i = 3 := by
  obtain ⟨b0, hb0⟩ := lget_lt sb (i / 4) hlen
  have hblt : b0 < 256 := hb b0 (List.get?_mem hb0)
  unfold statGet at hzero
  rw [hb0] at hzero
  unfold statOr statGet
  rw [hb0, lget_set_same _ _ _ (by simpa using hlen)]
  exact bitOrGetEq b0 hblt (i % 4) (Nat.mod_lt _ (by omega)) hzero

theorem statGet_statOr_ne (sb : List Nat) (i j : Nat)
    (hne : i ≠ j) (hb : ∀ b ∈ sb, b < 256) :
    statGet (statOr sb i 3) j = statGet sb j := by
  unfold statOr statGet
  cases hb0 : sb.get? (i / 4) with
  | none => rfl
  | some b0 =>
    have hblt : b0 < 256 := hb b0 (List.get?_mem hb0)
    by_cases hbyte : i / 4 = j / 4
    · have hmod : i % 4 ≠ j % 4 := fun h => hne (by omega)
      simp only [← hbyte]
      rw [lget_set_same _ _ _ (lget_some_lt _ _ _ hb0), hb0]
      exact bitOrGetNe b0 hblt (i % 4) (Nat.mod_lt _ (by omega)) (j % 4)
        (Nat.mod_lt _ (by omega)) hmod
    · rw [lget_set_other _ _ _ _ hbyte]

theorem statGet_replicate_zero (z i : Nat) : statGet (List.replicate z 0) i = 0 := by
  unfold statGet
  cases h : (List.replicate z 0).get? (i / 4) with
  | none => rfl
  | some b =>
    have : b = 0 := by
      have := List.get?_mem h
      simpa using List.eq_of_mem_replicate this
    simp [this]

/-! ## Claim C9: capacity rounding of `new` -/

/-- Claim C9: for every engine and every capacity hint `n`, `new(n)`
creates a table whose capacity is the smallest power of two that is both
`≥ n` and `≥ 16`, with size 0. -/
theorem c9_new_capacity [Inhabited K] [Inhabited V] (hfa hfb hfc : K → Nat) (n : Nat) :
    (oaNew (K := K) (V := V) hfa n).capacity = newCapacity n ∧
    (oaNew (K := K) (V := V) hfa n).size = 0 ∧
    (chNew (K := K) (V := V) hfb n).capacity = newCapacity n ∧
    (chNew (K := K) (V := V) hfb n).size = 0 ∧
    (cNew (K := K) (V := V) hfc n).capacity = newCapacity n ∧
    (cNew (K := K) (V := V) hfc n).size = 0 ∧
    (∃ e, newCapacity n = 2 ^ e) ∧ 16 ≤ newCapacity n ∧ n ≤ newCapacity n ∧
    ∀ p e', p = 2 ^ e' → 16 ≤ p → n ≤ p → newCapacity n ≤ p := by
  obtain ⟨⟨e, he⟩, hge, hmin⟩ := pow2ge_spec n
  refine ⟨rfl, rfl, rfl, rfl, rfl, rfl, ?_, Nat.le_max_left _ _,
    le_trans hge (Nat.le_max_right _ _), ?_⟩
  · rcases le_total (pow2ge n) 16 with h | h
    · exact ⟨4, by rw [newCapacity, Nat.max_eq_left h]; norm_num⟩
    · exact ⟨e, by rw [newCapacity, Nat.max_eq_right h, he]⟩
  · intro p e' hp h16 hnp
    exact Nat.max_le.mpr ⟨h16, hmin p e' hp hnp⟩

theorem c9_new_capacity_witness :
    (oaNew (V := Nat) (fun k : Nat => k) 10).capacity = newCapacity 10 ∧
      newCapacity 10 ≤ 16 := by
  have h := c9_new_capacity (K := Nat) (V := Nat) (fun k => k) (fun k => k) (fun k => k) 10
  exact ⟨h.1, h.2.2.2.2.2.2.2.2.2 16 4 (by norm_num) (by norm_num) (by norm_num)⟩

/-! ## Claim C4: packed-status independence -/

/-- Claim C4: in the compact engine, after `set_status(i, s)` with a 2-bit
status `s`, `get_status(i)` returns `s`, and `get_status(j)` is unchanged
for every other index `j`, including the neighbours sharing the same
status byte. -/
theorem c4_packed_status (m : CMap K V) (i j s : Nat)
    (hw : CWf m) (hi : i < m.capacity) (hs : s < 4) (hj : j ≠ i) :
    cGetStatus (cSetStatus m i s) i = s ∧
      cGetStatus (cSetStatus m i s) j = cGetStatus m j := by
  obtain ⟨hc, hel, hsl, hb⟩ := hw
  constructor
  · exact statGet_statSet_eq _ _ _ hs (by rw [hsl]; omega) hb
  · exact statGet_statSet_ne _ _ _ _ hs (fun h => hj h.symm) hb

theorem c4_packed_status_witness :
    (cGetStatus (cSetStatus c1cm2 2 1) 2 = 1 ∧
      cGetStatus (cSetStatus c1cm2 2 1) 1 = cGetStatus c1cm2 1) ∧
    (cGetStatus (cSetStatus c1cm2 2 1) 2 = 1 ∧
      cGetStatus (cSetStatus c1cm2 2 1) 3 = cGetStatus c1cm2 3) :=
  ⟨c4_packed_status c1cm2 2 1 1 (by decide) (by decide) (by decide) (by decide),
   c4_packed_status c1cm2 2 3 1 (by decide) (by decide) (by decide) (by decide)⟩

/-! ## Claim C7: chained delete removes exactly the first match -/

theorem listDelete_spec [DecidableEq K] :
    ∀ (l : List (K × V)) (k : K),
      listDelete l k
        = l.takeWhile (fun p => decide (p.1 ≠ k))
            ++ (l.dropWhile (fun p => decide (p.1 ≠ k))).tail := by
  intro l
  induction l with
  | nil => intro k; simp [listDelete]
  | cons p t ih =>
    intro k
    obtain ⟨k', v'⟩ := p
    by_cases h : k' = k
    · simp [listDelete, h, List.takeWhile_cons, List.dropWhile_cons]
    · simp [listDelete, h, List.takeWhile_cons, List.dropWhile_cons, ih]

theorem listDelete_absent [DecidableEq K] :
    ∀ (l : List (K × V)) (k : K), (∀ p ∈ l, p.1 ≠ k) → listDelete l k = l := by
  intro l
  induction l with
  | nil => intro k _; rfl
  | cons p t ih =>
    intro k habs
    obtain ⟨k', v'⟩ := p
    have hne : k' ≠ k := habs (k', v') (by simp)
    simp [listDelete, hne]
    exact ih k fun q hq => habs q (by simp [hq])

theorem lset_get_self {α : Type} :
    ∀ (l : List α) (i : Nat) (a : α), l.get? i = some a → l.set i a = l := by
  intro l
  induction l with
  | nil => intro i a h; simp [List.get?] at h
  | cons x t ih =>
    intro i a h
    cases i with
    | zero =>
      have hx : x = a := by simpa using h
      simp [List.set, hx]
    | succ j =>
      have ht : t.get? j = some a := h
      simp [List.set, ih j a ht]

/-- Claim C7: in the chained engine, `delete(k)` removes only the first
bucket entry whose key equals `k` and keeps every other entry of that
bucket in its original relative order (take the longest non-matching
front, drop the first match, keep the rest); for an absent key the table
is unchanged (and the operation is unconditionally `Ok` in the source). -/
theorem c7_chain_delete [DecidableEq K] (m : ChMap K V) (k : K) (b : List (K × V))
    (hb : m.buckets.get? (chHash m k) = some b) :
    chDelete m k
      = { m with
          buckets := m.buckets.set (chHash m k)
                       (b.takeWhile (fun p => decide (p.1 ≠ k))
                         ++ (b.dropWhile (fun p => decide (p.1 ≠ k))).tail) } ∧
    ((∀ p ∈ b, p.1 ≠ k) → chDelete m k = m) := by
  constructor
  · unfold chDelete
    rw [hb]
    dsimp only
    rw [listDelete_spec]
  · intro habs
    unfold chDelete
    rw [hb]
    dsimp only
    rw [listDelete_absent b k habs, lset_get_self _ _ _ hb]

theorem c7_chain_delete_witness :
    chDelete c7m 1
      = { c7m with
          buckets := c7m.buckets.set (chHash c7m 1)
                       (([(1, 10), (2, 20), (1, 30)] : List (Nat × Nat)).takeWhile
                           (fun p => decide (p.1 ≠ 1))
                         ++ (([(1, 10), (2, 20), (1, 30)] : List (Nat × Nat)).dropWhile
                           (fun p => decide (p.1 ≠ 1))).tail) } ∧
    chDelete c7m 5 = c7m :=
  ⟨(c7_chain_delete c7m 1 [(1, 10), (2, 20), (1, 30)] rfl).1,
   (c7_chain_delete c7m 5 [(1, 10), (2, 20), (1, 30)] rfl).2 (by decide)⟩

/-! ## Claim C8: failed operations leave the table intact -/

theorem oaInsertLoop_fail {m : OAMap K V} {k : K} {v : V} :
    ∀ (f ci : Nat) (m' : OAMap K V), oaInsertLoop m k v f ci = (m', false) → m' = m := by
  intro f
  induction f with
  | zero =>
    intro ci m' h
    simp only [oaInsertLoop] at h
    exact (Prod.mk.injEq _ _ _ _ ▸ h).1.symm
  | succ g ih =>
    intro ci m' h
    simp only [oaInsertLoop] at h
    cases hd : m.data.get? ci with
    | none =>
      rw [hd] at h
      exact (Prod.mk.injEq _ _ _ _ ▸ h).1.symm
    | some e =>
      cases e with
      | empty => rw [hd] at h; simp at h
      | deleted k0 => rw [hd] at h; simp at h
      | occupied k0 v0 => rw [hd] at h; exact ih _ _ h

theorem oaDeleteLoop_fail [DecidableEq K] {m : OAMap K V} {k : K} :
    ∀ (f ci : Nat) (m' : OAMap K V), oaDeleteLoop m k f ci = (m', false) → m' = m := by
  intro f
  induction f with
  | zero =>
    intro ci m' h
    simp only [oaDeleteLoop] at h
    exact (Prod.mk.injEq _ _ _ _ ▸ h).1.symm
  | succ g ih =>
    intro ci m' h
    simp only [oaDeleteLoop] at h
    cases hd : m.data.get? ci with
    | none =>
      rw [hd] at h
      exact (Prod.mk.injEq _ _ _ _ ▸ h).1.symm
    | some e =>
      cases e with
      | empty => rw [hd] at h; simp at h
      | deleted k0 =>
        rw [hd] at h
        by_cases hk : k0 = k
        · simp [hk] at h
        · simp only [hk, if_false] at h
          exact ih _ _ h
      | occupied k0 v0 =>
        rw [hd] at h
        by_cases hk : k0 = k
        · simp [hk] at h
        · simp only [hk, if_false] at h
          exact ih _ _ h

theorem cInsertLoop_fail [DecidableEq K] {m : CMap K V} {k : K} {v : V} :
    ∀ (f ci : Nat) (m' : CMap K V), cInsertLoop m k v f ci = (m', false) → m' = m := by
  intro f
  induction f with
  | zero =>
    intro ci m' h
    simp only [cInsertLoop] at h
    exact (Prod.mk.injEq _ _ _ _ ▸ h).1.symm
  | succ g ih =>
    intro ci m' h
    simp only [cInsertLoop] at h
    by_cases h01 : cGetStatus m ci = 0 ∨ cGetStatus m ci = 1
    · simp [h01] at h
    · simp only [h01, if_false] at h
      by_cases h3 : cGetStatus m ci = 3
      · simp only [h3, if_true] at h
        cases he : m.entries.get? ci with
        | none =>
          rw [he] at h
          exact (Prod.mk.injEq _ _ _ _ ▸ h).1.symm
        | some p =>
          rw [he] at h
          obtain ⟨k0, v0⟩ := p
          by_cases hk : k0 = k
          · simp [hk] at h
          · simp only [hk, if_false] at h
            exact ih _ _ h
      · simp only [h3, if_false] at h
        exact (Prod.mk.injEq _ _ _ _ ▸ h).1.symm

theorem cDeleteLoop_fail [DecidableEq K] {m : CMap K V} {k : K} :
    ∀ (f ci : Nat) (m' : CMap K V), cDeleteLoop m k f ci = (m', false) → m' = m := by
  intro f
  induction f with
  | zero =>
    intro ci m' h
    simp only [cDeleteLoop] at h
    exact (Prod.mk.injEq _ _ _ _ ▸ h).1.symm
  | succ g ih =>
    intro ci m' h
    simp only [cDeleteLoop] at h
    by_cases h0 : cGetStatus m ci = 0
    · simp [h0] at h
    · simp only [h0, if_false] at h
      by_cases h3 : cGetStatus m ci = 3
      · simp only [h3, if_true] at h
        cases he : m.entries.get? ci with
        | none =>
          rw [he] at h
          exact (Prod.mk.injEq _ _ _ _ ▸ h).1.symm
        | some p =>
          rw [he] at h
          obtain ⟨k0, v0⟩ := p
          by_cases hk : k0 = k
          · simp [hk] at h
          · simp only [hk, if_false] at h
            exact ih _ _ h
      · simp only [h3, if_false] at h
        by_cases h1 : cGetStatus m ci = 1
        · simp only [h1, if_true] at h
          exact ih _ _ h
        · simp only [h1, if_false] at h
          exact (Prod.mk.injEq _ _ _ _ ▸ h).1.symm

theorem oaResize_fields {m m' : OAMap K V} (h : oaResize m = some m') :
    m'.size = m.size ∧ m'.capacity = 2 * m.capacity ∧ m'.hashFn = m.hashFn := by
  unfold oaResize at h
  rw [Option.map_eq_some'] at h
  obtain ⟨d, _, hd⟩ := h
  rw [← hd]
  exact ⟨rfl, rfl, rfl⟩

theorem cResize_fields [Inhabited K] [Inhabited V] {m m' : CMap K V}
    (h : cResize m = some m') :
    m'.size = m.size ∧ m'.capacity = m.capacity * 2 ∧ m'.hashFn = m.hashFn := by
  unfold cResize at h
  rw [Option.map_eq_some'] at h
  obtain ⟨p, _, hp⟩ := h
  rw [← hp]
  exact ⟨rfl, rfl, rfl⟩

/-- Claim C8: whenever `insert` or `delete` returns a failure, `size` is
unchanged and no slot has been partially written: the table is either
exactly the input table, or (failed insert only) the input table after a
completed `resize`, which rewrites whole slots and never touches `size`.
The chained engine's `insert` and `delete` have no failing return at all. -/
theorem c8_failed_ops_preserve [DecidableEq K] [Inhabited K] [Inhabited V] :
    (∀ (m m' : OAMap K V) (k : K) (v : V), oaInsert m k v = some (m', false) →
        m'.size = m.size ∧ (m' = m ∨ oaResize m = some m')) ∧
    (∀ (m m' : OAMap K V) (k : K), oaDelete m k = (m', false) → m' = m) ∧
    (∀ (m m' : CMap K V) (k : K) (v : V), cInsert m k v = some (m', false) →
        m'.size = m.size ∧ (m' = m ∨ cResize m = some m')) ∧
    (∀ (m m' : CMap K V) (k : K), cDelete m k = (m', false) → m' = m) := by
  refine ⟨?_, ?_, ?_, ?_⟩
  · intro m m' k v h
    unfold oaInsert at h
    by_cases hres : 7 * m.capacity ≤ 10 * m.size
    · rw [if_pos hres, Option.map_eq_some'] at h
      obtain ⟨m1, hr, hloop⟩ := h
      have hm1 : m' = m1 := oaInsertLoop_fail _ _ _ hloop
      subst hm1
      exact ⟨(oaResize_fields hr).1, Or.inr hr⟩
    · rw [if_neg hres] at h
      have : m' = m := oaInsertLoop_fail _ _ _ (Option.some.injEq _ _ ▸ h)
      exact ⟨by rw [this], Or.inl this⟩
  · intro m m' k h
    exact oaDeleteLoop_fail _ _ _ h
  · intro m m' k v h
    unfold cInsert at h
    by_cases hres : 7 * m.capacity ≤ 10 * m.size
    · rw [if_pos hres, Option.map_eq_some'] at h
      obtain ⟨m1, hr, hloop⟩ := h
      have hm1 : m' = m1 := cInsertLoop_fail _ _ _ hloop
      subst hm1
      exact ⟨(cResize_fields hr).1, Or.inr hr⟩
    · rw [if_neg hres] at h
      have : m' = m := cInsertLoop_fail _ _ _ (Option.some.injEq _ _ ▸ h)
      exact ⟨by rw [this], Or.inl this⟩
  · intro m m' k h
    exact cDeleteLoop_fail _ _ _ h

theorem c8_failed_ops_preserve_witness :
    (full4.size = full4.size ∧ (full4 = full4 ∨ oaResize full4 = some full4)) ∧
    full4 = full4 ∧
    (cfull4.size = cfull4.size ∧ (cfull4 = cfull4 ∨ cResize cfull4 = some cfull4)) ∧
    cfull4 = cfull4 :=
  ⟨c8_failed_ops_preserve.1 full4 full4 9 9 rfl,
   c8_failed_ops_preserve.2.1 full4 full4 9 rfl,
   c8_failed_ops_preserve.2.2.1 cfull4 cfull4 9 9 rfl,
   c8_failed_ops_preserve.2.2.2 cfull4 cfull4 9 rfl⟩

/-! ## Claim C6: wrap-around on insert is a recoverable error -/

theorem oaInsertLoop_occfull {m : OAMap K V} {k : K} {v : V} [DecidableEq K]
    (hall : ∀ j, j < m.capacity → entryOccNe k (m.data.get? j) = true) :
    ∀ (f ci : Nat), ci < m.capacity → oaInsertLoop m k v f ci = (m, false) := by
  intro f
  induction f with
  | zero => intro ci _; rfl
  | succ g ih =>
    intro ci hci
    have hocc := hall ci hci
    simp only [oaInsertLoop]
    cases hd : m.data.get? ci with
    | none => rfl
    | some e =>
      cases e with
      | empty => exfalso; rw [hd] at hocc; simp [entryOccNe] at hocc
      | deleted k0 => exfalso; rw [hd] at hocc; simp [entryOccNe] at hocc
      | occupied k0 v0 =>
        exact ih _ (Nat.mod_lt _ (by omega))

theorem cInsertLoop_occfull [DecidableEq K] {m : CMap K V} {k : K} {v : V}
    (hall : ∀ j, j < m.capacity → cOccNe m k j = true) :
    ∀ (f ci : Nat), ci < m.capacity → cInsertLoop m k v f ci = (m, false) := by
  intro f
  induction f with
  | zero => intro ci _; rfl
  | succ g ih =>
    intro ci hci
    have hocc := hall ci hci
    unfold cOccNe at hocc
    rw [Bool.and_eq_true] at hocc
    have h3 : cGetStatus m ci = 3 := by simpa using hocc.1
    simp only [cInsertLoop]
    rw [if_neg (by simp [h3]), if_pos h3]
    cases he : m.entries.get? ci with
    | none => exfalso; rw [he] at hocc; simp at hocc
    | some p =>
      obtain ⟨k0, v0⟩ := p
      rw [he] at hocc
      have hk : k0 ≠ k := by simpa using hocc.2
      dsimp only
      rw [if_neg hk]
      exact ih _ (Nat.mod_lt _ (by omega))

/-- Claim C6: for both open-addressing engines, when the probe sequence
would return to its starting index without finding an `Empty` or
`Deleted` slot and without completing an upsert, `insert` terminates with
a recoverable error and the table unchanged rather than looping. -/
theorem c6_insert_exhaustion_error [DecidableEq K] [Inhabited K] [Inhabited V] :
    (∀ (m : OAMap K V) (k : K) (v : V), 0 < m.capacity → 10 * m.size < 7 * m.capacity →
        (∀ j, j < m.capacity → entryOccNe k (m.data.get? j) = true) →
        oaInsert m k v = some (m, false)) ∧
    (∀ (m : CMap K V) (k : K) (v : V), 0 < m.capacity → 10 * m.size < 7 * m.capacity →
        (∀ j, j < m.capacity → cOccNe m k j = true) →
        cInsert m k v = some (m, false)) := by
  constructor
  · intro m k v hcap hload hall
    unfold oaInsert
    rw [if_neg (by omega)]
    exact congrArg some (oaInsertLoop_occfull hall m.capacity (oaHash m k) (Nat.mod_lt _ hcap))
  · intro m k v hcap hload hall
    unfold cInsert
    rw [if_neg (by omega)]
    exact congrArg some (cInsertLoop_occfull hall m.capacity (cHash m k) (Nat.mod_lt _ hcap))

theorem c6_insert_exhaustion_error_witness :
    oaInsert full4 9 9 = some (full4, false) ∧ cInsert cfull4 9 9 = some (cfull4, false) :=
  ⟨c6_insert_exhaustion_error.1 full4 9 9 (by decide) (by decide) (by decide),
   c6_insert_exhaustion_error.2 cfull4 9 9 (by decide) (by decide) (by decide)⟩

/-! ## Claim C3: delete writes a tombstone and preserves other lookups -/

theorem oaDeleteLoop_found [DecidableEq K] {m : OAMap K V} {k : K} :
    ∀ (f ci : Nat) (m' : OAMap K V), oaDeleteLoop m k f ci = (m', true) →
      m' = m ∨ ∃ j w, m.data.get? j = some (Entry.occupied k w) ∧
        m' = { m with data := m.data.set j (Entry.deleted k), size := m.size - 1 } := by
  intro f
  induction f with
  | zero => intro ci m' h; simp [oaDeleteLoop] at h
  | succ g ih =>
    intro ci m' h
    simp only [oaDeleteLoop] at h
    cases hd : m.data.get? ci with
    | none => rw [hd] at h; simp at h
    | some e =>
      cases e with
      | empty =>
        rw [hd] at h
        simp at h
        exact Or.inl h.symm
      | deleted k0 =>
        rw [hd] at h
        by_cases hk : k0 = k
        · simp [hk] at h
          exact Or.inl h.symm
        · simp only [hk, if_false] at h
          exact ih _ _ h
      | occupied k0 w =>
        rw [hd] at h
        by_cases hk : k0 = k
        · subst hk
          simp only [if_pos rfl] at h
          simp at h
          exact Or.inr ⟨ci, w, hd, h.symm⟩
        · simp only [hk, if_false] at h
          exact ih _ _ h

theorem oaGet_delete_sim [DecidableEq K] {m : OAMap K V} {j : Nat} {k : K} {w : V}
    (hj : m.data.get? j = some (Entry.occupied k w)) (k' : K) (hk' : k' ≠ k) :
    ∀ (f ci : Nat),
      oaGetLoop { m with data := m.data.set j (Entry.deleted k), size := m.size - 1 } k' f ci
        = oaGetLoop m k' f ci := by
  intro f
  induction f with
  | zero => intro ci; rfl
  | succ g ih =>
    intro ci
    simp only [oaGetLoop]
    by_cases hci : ci = j
    · subst hci
      rw [lget_set_same _ _ _ (lget_some_lt _ _ _ hj), hj]
      dsimp only
      rw [if_neg (fun h => hk' h.symm)]
      exact ih _
    · rw [lget_set_other _ _ _ _ (fun h => hci h.symm)]
      cases hd : m.data.get? ci with
      | none => rfl
      | some e =>
        cases e with
        | empty => rfl
        | deleted k0 => exact ih _
        | occupied k0 v0 =>
          dsimp only
          by_cases hk0 : k0 = k'
          · rw [if_pos hk0, if_pos hk0]
          · rw [if_neg hk0, if_neg hk0]
            exact ih _

theorem cDeleteLoop_found [DecidableEq K] {m : CMap K V} {k : K} :
    ∀ (f ci : Nat), ci < m.capacity → ∀ (m' : CMap K V), cDeleteLoop m k f ci = (m', true) →
      m' = m ∨ ∃ j w, j < m.capacity ∧ cGetStatus m j = 3 ∧
        m.entries.get? j = some (k, w) ∧
        m' = { m with status_bits := statSet m.status_bits j 1, size := m.size - 1 } := by
  intro f
  induction f with
  | zero => intro ci _ m' h; simp [cDeleteLoop] at h
  | succ g ih =>
    intro ci hci m' h
    simp only [cDeleteLoop] at h
    by_cases h0 : cGetStatus m ci = 0
    · rw [if_pos h0] at h
      simp at h
      exact Or.inl h.symm
    · rw [if_neg h0] at h
      by_cases h3 : cGetStatus m ci = 3
      · rw [if_pos h3] at h
        cases he : m.entries.get? ci with
        | none => rw [he] at h; simp at h
        | some p =>
          rw [he] at h
          obtain ⟨k0, w⟩ := p
          by_cases hk : k0 = k
          · subst hk
            simp only [if_pos rfl] at h
            simp at h
            exact Or.inr ⟨ci, w, hci, h3, he, h.symm⟩
          · simp only [hk, if_false] at h
            exact ih _ (Nat.mod_lt _ (by omega)) _ h
      · rw [if_neg h3] at h
        by_cases h1 : cGetStatus m ci = 1
        · rw [if_pos h1] at h
          exact ih _ (Nat.mod_lt _ (by omega)) _ h
        · rw [if_neg h1] at h
          simp at h

theorem cGet_delete_sim [DecidableEq K] {m : CMap K V} {j : Nat} {k : K} {w : V}
    (hsl : m.status_bits.length = (m.capacity + 3) / 4)
    (hb : ∀ b ∈ m.status_bits, b < 256)
    (hjc : j < m.capacity)
    (hs3 : cGetStatus m j = 3) (hje : m.entries.get? j = some (k, w))
    (k' : K) (hk' : k' ≠ k) (md : CMap K V)
    (hmds : md.status_bits = statSet m.status_bits j 1)
    (hmde : md.entries = m.entries) (hmdc : md.capacity = m.capacity) :
    ∀ (f ci : Nat), cGetLoop md k' f ci = cGetLoop m k' f ci := by
  intro f
  induction f with
  | zero => intro ci; rfl
  | succ g ih =>
    intro ci
    simp only [cGetLoop]
    by_cases hci : ci = j
    · subst hci
      have hmd : cGetStatus md ci = 1 := by
        show statGet md.status_bits ci = 1
        rw [hmds]
        exact statGet_statSet_eq _ _ _ (by omega) (by rw [hsl]; omega) hb
      rw [hmd, hs3]
      rw [if_neg (show (1 : Nat) ≠ 0 by omega), if_neg (show (1 : Nat) ≠ 3 by omega),
        if_pos (show (1 : Nat) = 1 from rfl), if_neg (show (3 : Nat) ≠ 0 by omega),
        if_pos (show (3 : Nat) = 3 from rfl), hje]
      dsimp only
      rw [if_neg (fun h => hk' h.symm), hmdc]
      exact ih _
    · have hmd : cGetStatus md ci = cGetStatus m ci := by
        show statGet md.status_bits ci = statGet m.status_bits ci
        rw [hmds]
        exact statGet_statSet_ne _ _ _ _ (by omega) (fun h => hci h.symm) hb
      rw [hmd, hmde, hmdc]
      by_cases h0 : cGetStatus m ci = 0
      · rw [if_pos h0, if_pos h0]
      · rw [if_neg h0, if_neg h0]
        by_cases h3 : cGetStatus m ci = 3
        · rw [if_pos h3, if_pos h3]
          cases he : m.entries.get? ci with
          | none => rfl
          | some p =>
            obtain ⟨k0, v0⟩ := p
            dsimp only
            by_cases hk0 : k0 = k'
            · rw [if_pos hk0, if_pos hk0]
            · rw [if_neg hk0, if_neg hk0]
              exact ih _
        · rw [if_neg h3, if_neg h3]
          by_cases h1 : cGetStatus m ci = 1
          · rw [if_pos h1, if_pos h1]
            exact ih _
          · rw [if_neg h1, if_neg h1]

/-- Claim C3: for both open-addressing engines, when `delete(k)` finds the
`Occupied` slot holding `k`, it converts that slot to `Deleted` (never
`Empty`) and decrements `size` by one; afterwards `get` of every other
key — in particular every live key whose probe sequence passed through
that slot — returns exactly what it returned before the deletion. -/
theorem c3_delete_tombstone [DecidableEq K] :
    (∀ (m m' : OAMap K V) (k : K), oaDelete m k = (m', true) →
        (m' = m ∨ ∃ j w, m.data.get? j = some (Entry.occupied k w) ∧
          m'.data = m.data.set j (Entry.deleted k) ∧ m'.size = m.size - 1) ∧
        ∀ k', k' ≠ k → oaGet m' k' = oaGet m k') ∧
    (∀ (m m' : CMap K V) (k : K), 0 < m.capacity →
        m.status_bits.length = (m.capacity + 3) / 4 →
        (∀ b ∈ m.status_bits, b < 256) →
        cDelete m k = (m', true) →
        (m' = m ∨ ∃ j w, j < m.capacity ∧ cGetStatus m j = 3 ∧
          m.entries.get? j = some (k, w) ∧ cGetStatus m' j = 1 ∧
          m'.entries = m.entries ∧ m'.size = m.size - 1) ∧
        ∀ k', k' ≠ k → cGet m' k' = cGet m k') := by
  constructor
  · intro m m' k h
    rcases oaDeleteLoop_found _ _ _ h with hm | ⟨j, w, hj, hm⟩
    · subst hm
      exact ⟨Or.inl rfl, fun _ _ => rfl⟩
    · subst hm
      refine ⟨Or.inr ⟨j, w, hj, rfl, rfl⟩, ?_⟩
      intro k' hk'
      unfold oaGet oaHash
      exact oaGet_delete_sim hj k' hk' _ _
  · intro m m' k hcap hsl hb h
    rcases cDeleteLoop_found _ _ (Nat.mod_lt _ hcap) _ h with hm | ⟨j, w, hjc, hs3, hje, hm⟩
    · subst hm
      exact ⟨Or.inl rfl, fun _ _ => rfl⟩
    · subst hm
      refine ⟨Or.inr ⟨j, w, hjc, hs3, hje, ?_, rfl, rfl⟩, ?_⟩
      · show statGet (statSet m.status_bits j 1) j = 1
        exact statGet_statSet_eq _ _ _ (by omega) (by rw [hsl]; omega) hb
      · intro k' hk'
        unfold cGet cHash
        exact cGet_delete_sim hsl hb hjc hs3 hje k' hk' { m with status_bits := statSet m.status_bits j 1, size := m.size - 1 } rfl rfl rfl _ _

theorem c3_delete_tombstone_witness :
    (((oaDelete c1pm1 5).1 = c1pm1 ∨
        ∃ j w, c1pm1.data.get? j = some (Entry.occupied 5 w) ∧
          (oaDelete c1pm1 5).1.data = c1pm1.data.set j (Entry.deleted 5) ∧
          (oaDelete c1pm1 5).1.size = c1pm1.size - 1) ∧
      ∀ k', k' ≠ 5 → oaGet (oaDelete c1pm1 5).1 k' = oaGet c1pm1 k') ∧
    ((cDelete c1cm2 5).1 = c1cm2 ∨
        ∃ j w, j < c1cm2.capacity ∧ cGetStatus c1cm2 j = 3 ∧
          c1cm2.entries.get? j = some (5, w) ∧ cGetStatus (cDelete c1cm2 5).1 j = 1 ∧
          (cDelete c1cm2 5).1.entries = c1cm2.entries ∧
          (cDelete c1cm2 5).1.size = c1cm2.size - 1) := by
  have h1 := c3_delete_tombstone.1 c1pm1 (oaDelete c1pm1 5).1 5 rfl
  have h2 := c3_delete_tombstone.2 c1cm2 (cDelete c1cm2 5).1 5
    (by decide) (by decide) (by decide) rfl
  exact ⟨h1, h2.1⟩

/-! ## Claim C10: success and failure of delete for a key that is not live -/

theorem stop_shift {cap : Nat} (P : Nat → Prop) (ci g : Nat)
    (hstop0 : ¬ P ci) (hci : ci < cap) :
    (∃ t, t < g ∧ P (((ci + 1) % cap + t) % cap))
      ↔ (∃ t, t < g + 1 ∧ P ((ci + t) % cap)) := by
  constructor
  · rintro ⟨t, ht, hp⟩
    rw [probe_shift] at hp
    exact ⟨t + 1, by omega, hp⟩
  · rintro ⟨t, ht, hp⟩
    cases t with
    | zero =>
      rw [Nat.add_zero, Nat.mod_eq_of_lt hci] at hp
      exact absurd hp hstop0
    | succ t' =>
      refine ⟨t', by omega, ?_⟩
      rw [probe_shift]
      exact hp

theorem oaDeleteLoop_absent [DecidableEq K] {m : OAMap K V} {k : K}
    (_hlen : m.data.length = m.capacity)
    (hall : ∀ j, j < m.capacity → entryNotOcc k (m.data.get? j) = true) :
    ∀ (f ci : Nat), ci < m.capacity →
      (oaDeleteLoop m k f ci).1 = m ∧
      ((oaDeleteLoop m k f ci).2 = true ↔
        ∃ t, t < f ∧ (m.data.get? ((ci + t) % m.capacity) = some Entry.empty ∨
          m.data.get? ((ci + t) % m.capacity) = some (Entry.deleted k))) := by
  intro f
  induction f with
  | zero =>
    intro ci _
    refine ⟨rfl, ?_⟩
    simp [oaDeleteLoop]
  | succ g ih =>
    intro ci hci
    have hocc := hall ci hci
    simp only [oaDeleteLoop]
    cases hd : m.data.get? ci with
    | none => rw [hd] at hocc; simp [entryNotOcc] at hocc
    | some e =>
      cases e with
      | empty =>
        refine ⟨rfl, ?_⟩
        constructor
        · intro _
          exact ⟨0, by omega, by rw [Nat.add_zero, Nat.mod_eq_of_lt hci]; exact Or.inl hd⟩
        · intro _; rfl
      | deleted k0 =>
        dsimp only
        by_cases hk : k0 = k
        · subst hk
          rw [if_pos rfl]
          refine ⟨rfl, ?_⟩
          constructor
          · intro _
            exact ⟨0, by omega, by rw [Nat.add_zero, Nat.mod_eq_of_lt hci]; exact Or.inr hd⟩
          · intro _; rfl
        · rw [if_neg hk]
          have hrec := ih ((ci + 1) % m.capacity) (Nat.mod_lt _ (by omega))
          refine ⟨hrec.1, ?_⟩
          rw [hrec.2]
          refine stop_shift
            (fun p => m.data.get? p = some Entry.empty ∨
              m.data.get? p = some (Entry.deleted k)) ci g ?_ hci
          rintro (hp | hp)
          · rw [hd] at hp; simp at hp
          · rw [hd] at hp
            simp at hp
            exact hk hp
      | occupied k0 w =>
        rw [hd] at hocc
        have hk : k0 ≠ k := by simpa [entryNotOcc] using hocc
        dsimp only
        rw [if_neg hk]
        have hrec := ih ((ci + 1) % m.capacity) (Nat.mod_lt _ (by omega))
        refine ⟨hrec.1, ?_⟩
        rw [hrec.2]
        refine stop_shift
          (fun p => m.data.get? p = some Entry.empty ∨
            m.data.get? p = some (Entry.deleted k)) ci g ?_ hci
        rintro (hp | hp)
        · rw [hd] at hp; simp at hp
        · rw [hd] at hp; simp at hp

theorem cDeleteLoop_absent [DecidableEq K] {m : CMap K V} {k : K}
    (_hlen : m.entries.length = m.capacity)
    (hall : ∀ j, j < m.capacity → cNotOcc m k j = true) :
    ∀ (f ci : Nat), ci < m.capacity →
      (cDeleteLoop m k f ci).1 = m ∧
      ((cDeleteLoop m k f ci).2 = true ↔
        ∃ t, t < f ∧ cGetStatus m ((ci + t) % m.capacity) = 0) := by
  intro f
  induction f with
  | zero =>
    intro ci _
    refine ⟨rfl, ?_⟩
    simp [cDeleteLoop]
  | succ g ih =>
    intro ci hci
    have hocc := hall ci hci
    unfold cNotOcc at hocc
    simp only [cDeleteLoop]
    by_cases h0 : cGetStatus m ci = 0
    · rw [if_pos h0]
      refine ⟨rfl, ?_⟩
      constructor
      · intro _
        exact ⟨0, by omega, by rw [Nat.add_zero, Nat.mod_eq_of_lt hci]; exact h0⟩
      · intro _; rfl
    · rw [if_neg h0]
      by_cases h3 : cGetStatus m ci = 3
      · rw [if_pos h3]
        rw [if_neg (show ¬(cGetStatus m ci = 0 ∨ cGetStatus m ci = 1) by rw [h3]; omega),
          if_pos h3] at hocc
        cases he : m.entries.get? ci with
        | none => rw [he] at hocc; simp at hocc
        | some p =>
          obtain ⟨k0, v0⟩ := p
          rw [he] at hocc
          have hk : k0 ≠ k := by simpa using hocc
          dsimp only
          rw [if_neg hk]
          have hrec := ih ((ci + 1) % m.capacity) (Nat.mod_lt _ (by omega))
          refine ⟨hrec.1, ?_⟩
          rw [hrec.2]
          exact stop_shift (fun p => cGetStatus m p = 0) ci g h0 hci
      · rw [if_neg h3]
        by_cases h1 : cGetStatus m ci = 1
        · rw [if_pos h1]
          have hrec := ih ((ci + 1) % m.capacity) (Nat.mod_lt _ (by omega))
          refine ⟨hrec.1, ?_⟩
          rw [hrec.2]
          exact stop_shift (fun p => cGetStatus m p = 0) ci g h0 hci
        · exfalso
          rw [if_neg (show ¬(cGetStatus m ci = 0 ∨ cGetStatus m ci = 1) by omega),
            if_neg h3] at hocc
          simp at hocc

/-- Claim C10: for both open-addressing engines, `delete` of a key that
is not live returns success with the table unchanged exactly when the
probe window (the `capacity` slots starting at the hash index) contains
an `Empty` slot or, in the plain engine only, a `Deleted` slot whose
stale key equals the argument; otherwise the probe wraps around and an
error is returned (still with the table unchanged). -/
theorem c10_delete_absent [DecidableEq K] :
    (∀ (m : OAMap K V) (k : K), 0 < m.capacity → m.data.length = m.capacity →
        (∀ j, j < m.capacity → entryNotOcc k (m.data.get? j) = true) →
        (oaDelete m k).1 = m ∧
        ((oaDelete m k).2 = true ↔ ∃ t, t < m.capacity ∧
          (m.data.get? ((oaHash m k + t) % m.capacity) = some Entry.empty ∨
           m.data.get? ((oaHash m k + t) % m.capacity) = some (Entry.deleted k)))) ∧
    (∀ (m : CMap K V) (k : K), 0 < m.capacity → m.entries.length = m.capacity →
        (∀ j, j < m.capacity → cNotOcc m k j = true) →
        (cDelete m k).1 = m ∧
        ((cDelete m k).2 = true ↔ ∃ t, t < m.capacity ∧
          cGetStatus m ((cHash m k + t) % m.capacity) = 0)) := by
  constructor
  · intro m k hcap hlen hall
    exact oaDeleteLoop_absent hlen hall m.capacity (oaHash m k) (Nat.mod_lt _ hcap)
  · intro m k hcap hlen hall
    exact cDeleteLoop_absent hlen hall m.capacity (cHash m k) (Nat.mod_lt _ hcap)

theorem c10_delete_absent_witness :
    ((oaDelete c1pm1 9).1 = c1pm1 ∧ (oaDelete c1pm1 9).2 = true) ∧
    ((cDelete c1cm3 9).1 = c1cm3 ∧ (cDelete c1cm3 9).2 = true) := by
  have h1 := c10_delete_absent.1 c1pm1 9 (by decide) (by decide) (by decide)
  have h2 := c10_delete_absent.2 c1cm3 9 (by decide) (by decide) (by decide)
  refine ⟨⟨h1.1, h1.2.mpr ⟨0, by decide, Or.inl (by decide)⟩⟩,
    ⟨h2.1, h2.2.mpr ⟨2, by decide, by decide⟩⟩⟩

/-! ## Chained-engine machinery: bucket-list lemmas and the insert invariant -/

theorem listGet_listInsert [DecidableEq K] :
    ∀ (l : List (K × V)) (k : K) (v : V), listGet (listInsert l k v).2 k = some v := by
  intro l
  induction l with
  | nil => intro k v; simp [listInsert, listGet]
  | cons p t ih =>
    intro k v
    obtain ⟨k', v'⟩ := p
    by_cases h : k' = k
    · simp [listInsert, h, listGet]
    · simp [listInsert, h, listGet]
      exact ih k v

theorem listInsert_false_of_get [DecidableEq K] :
    ∀ (l : List (K × V)) (k : K) (v w : V), listGet l k = some w →
      (listInsert l k v).1 = false := by
  intro l
  induction l with
  | nil => intro k v w h; simp [listGet] at h
  | cons p t ih =>
    intro k v w h
    obtain ⟨k', v'⟩ := p
    by_cases hk : k' = k
    · simp [listInsert, hk]
    · simp [listGet, hk] at h
      simp [listInsert, hk]
      exact ih k v w h

theorem listInsert_length [DecidableEq K] :
    ∀ (l : List (K × V)) (k : K) (v : V),
      (listInsert l k v).2.length = l.length + (if (listInsert l k v).1 then 1 else 0) := by
  intro l
  induction l with
  | nil => intro k v; simp [listInsert]
  | cons p t ih =>
    intro k v
    obtain ⟨k', v'⟩ := p
    by_cases h : k' = k
    · simp [listInsert, h]
    · simp only [listInsert, h, if_false]
      simp only [List.length_cons]
      rw [ih k v]
      by_cases hb : (listInsert t k v).1
      · simp [hb]
      · simp [hb]

theorem listDelete_length_le [DecidableEq K] :
    ∀ (l : List (K × V)) (k : K), (listDelete l k).length ≤ l.length := by
  intro l
  induction l with
  | nil => intro k; simp [listDelete]
  | cons p t ih =>
    intro k
    obtain ⟨k', v'⟩ := p
    have := ih k
    by_cases h : k' = k
    · subst h
      have hred : listDelete ((k', v') :: t) k' = t := by simp [listDelete]
      rw [hred, List.length_cons]
      omega
    · simp only [listDelete, h, if_false, List.length_cons]
      omega

theorem map_sum_set {α : Type} (g : α → Nat) :
    ∀ (l : List α) (i : Nat) (b a : α), l.get? i = some a →
      ((l.set i b).map g).sum + g a = (l.map g).sum + g b := by
  intro l
  induction l with
  | nil => intro i b a h; simp [List.get?] at h
  | cons x t ih =>
    intro i b a h
    cases i with
    | zero =>
      have hx : x = a := by simpa using h
      subst hx
      simp [List.set]
      omega
    | succ j =>
      have ht : t.get? j = some a := h
      simp only [List.set, List.map_cons, List.sum_cons]
      have := ih j b a ht
      omega

theorem chInsertCore_fields [DecidableEq K] (m : ChMap K V) (k : K) (v : V) :
    (chInsertCore m k v).capacity = m.capacity ∧
    (chInsertCore m k v).hashFn = m.hashFn ∧
    (chInsertCore m k v).buckets.length = m.buckets.length ∧
    ∃ d, d ≤ 1 ∧ (chInsertCore m k v).size = m.size + d ∧
      chEntryCount (chInsertCore m k v) = chEntryCount m + d := by
  unfold chInsertCore
  cases hbk : m.buckets.get? (chHash m k) with
  | none => exact ⟨rfl, rfl, rfl, 0, by omega, by simp, by simp⟩
  | some b =>
    dsimp only
    refine ⟨rfl, rfl, by simp, ?_⟩
    have hsum := map_sum_set List.length m.buckets (chHash m k) (listInsert b k v).2 b hbk
    have hlen := listInsert_length b k v
    by_cases hnew : (listInsert b k v).1 = true
    · refine ⟨1, by omega, by simp [hnew], ?_⟩
      show ((m.buckets.set (chHash m k) (listInsert b k v).2).map List.length).sum
        = (m.buckets.map List.length).sum + 1
      rw [hnew] at hlen
      simp at hlen
      omega
    · refine ⟨0, by omega, by simp [hnew], ?_⟩
      show ((m.buckets.set (chHash m k) (listInsert b k v).2).map List.length).sum
        = (m.buckets.map List.length).sum + 0
      rw [Bool.not_eq_true] at hnew
      rw [hnew] at hlen
      simp at hlen
      omega

theorem chResizeBase_entry (m : ChMap K V) : chEntryCount (chResizeBase m) = 0 := by
  unfold chEntryCount chResizeBase
  simp

theorem chFold_inv [DecidableEq K] (g : Nat)
    (IH : ∀ (a : ChMap K V) (k : K) (v : V) (b : ChMap K V), ChInv a →
      chInsertF g a k v = some b → ChInv b ∧ b.size ≤ a.size + 1 ∧ a.capacity ≤ b.capacity) :
    ∀ (l : List (K × V)) (m0 m1 : ChMap K V), ChInv m0 →
      List.foldlM (fun acc (p : K × V) => chInsertF g acc p.1 p.2) m0 l = some m1 →
      ChInv m1 ∧ m1.size ≤ m0.size + l.length ∧ m0.capacity ≤ m1.capacity := by
  intro l
  induction l with
  | nil =>
    intro m0 m1 h0 hfold
    simp [List.foldlM] at hfold
    subst hfold
    exact ⟨h0, by omega, le_refl _⟩
  | cons p t ihl =>
    intro m0 m1 h0 hfold
    rw [List.foldlM_cons] at hfold
    cases ha : chInsertF g m0 p.1 p.2 with
    | none => rw [ha] at hfold; simp at hfold
    | some a =>
      rw [ha] at hfold
      rw [show ((some a >>= fun b => List.foldlM (fun acc (p : K × V) =>
        chInsertF g acc p.1 p.2) b t) = List.foldlM (fun acc (p : K × V) =>
        chInsertF g acc p.1 p.2) a t) from rfl] at hfold
      obtain ⟨hia, hsa, hca⟩ := IH m0 p.1 p.2 a h0 ha
      obtain ⟨hi1, hs1, hc1⟩ := ihl a m1 hia hfold
      exact ⟨hi1, by simpa using by omega, le_trans hca hc1⟩

theorem chInsertF_inv [DecidableEq K] :
    ∀ (f : Nat) (m : ChMap K V) (k : K) (v : V) (m' : ChMap K V),
      ChInv m → chInsertF f m k v = some m' →
      ChInv m' ∧ m'.size ≤ m.size + 1 ∧ m.capacity ≤ m'.capacity := by
  intro f
  induction f with
  | zero => intro m k v m' _ h; simp [chInsertF] at h
  | succ g ih =>
    intro m k v m' hm h
    obtain ⟨hc2, hlen, hload, hcnt⟩ := hm
    simp only [chInsertF] at h
    rw [Option.map_eq_some'] at h
    obtain ⟨m1, hpre, hcore⟩ := h
    by_cases hguard : 7 * m.capacity ≤ 10 * m.size
    · rw [if_pos hguard] at hpre
      have hbase : ChInv (chResizeBase m) := by
        refine ⟨by show 2 ≤ 2 * m.capacity; omega, ?_, ?_, ?_⟩
        · show (List.replicate (2 * m.capacity) ([] : List (K × V))).length = 2 * m.capacity
          simp
        · show 10 * 0 ≤ 7 * (2 * m.capacity) + 9
          omega
        · rw [chResizeBase_entry]
          exact Nat.zero_le _
      have hentlen : (chEntries m).length = chEntryCount m := by
        unfold chEntries chEntryCount
        exact List.length_flatten _
      obtain ⟨hi1, hs1, hc1⟩ :=
        chFold_inv g (fun a k v b => ih a k v b) (chEntries m) (chResizeBase m) m1 hbase hpre
      obtain ⟨hcap', hhf', hlen', d, hd, hsz', hcnt'⟩ := chInsertCore_fields m1 k v
      obtain ⟨hic2, hilen, hiload, hicnt⟩ := hi1
      have hm1size : m1.size ≤ chEntryCount m := by
        have : (chResizeBase m).size = 0 := rfl
        omega
      have hm1cap : 2 * m.capacity ≤ m1.capacity := by
        have : (chResizeBase m).capacity = 2 * m.capacity := rfl
        omega
      subst hcore
      refine ⟨⟨by omega, by omega, by omega, by omega⟩, by omega, by omega⟩
    · rw [if_neg hguard] at hpre
      have hm1 : m1 = m := by
        have := hpre
        simp at this
        exact this.symm
      subst hm1
      obtain ⟨hcap', hhf', hlen', d, hd, hsz', hcnt'⟩ := chInsertCore_fields m1 k v
      subst hcore
      refine ⟨⟨by omega, by omega, by omega, by omega⟩, by omega, by omega⟩

theorem chGet_chInsertCore [DecidableEq K] (m : ChMap K V) (k : K) (v : V)
    (hcap : 0 < m.capacity) (hlen : m.buckets.length = m.capacity) :
    chGet (chInsertCore m k v) k = some (some v) := by
  have hidx : chHash m k < m.buckets.length := by rw [hlen]; exact Nat.mod_lt _ hcap
  obtain ⟨b, hb⟩ := lget_lt _ _ hidx
  unfold chInsertCore
  rw [hb]
  dsimp only
  show ((m.buckets.set (chHash m k) (listInsert b k v).2).get? (chHash m k)).map
    (fun b => listGet b k) = some (some v)
  rw [lget_set_same _ _ _ hidx]
  simp [listGet_listInsert]

theorem chInsertF_dest [DecidableEq K] {f : Nat} {m m' : ChMap K V} {k : K} {v : V}
    (hm : ChInv m) (h : chInsertF f m k v = some m') :
    ∃ m1, ChInv m1 ∧ m' = chInsertCore m1 k v ∧
      (¬ 7 * m.capacity ≤ 10 * m.size → m1 = m) := by
  cases f with
  | zero => simp [chInsertF] at h
  | succ g =>
    simp only [chInsertF] at h
    rw [Option.map_eq_some'] at h
    obtain ⟨m1, hpre, hcore⟩ := h
    by_cases hguard : 7 * m.capacity ≤ 10 * m.size
    · rw [if_pos hguard] at hpre
      have hbase : ChInv (chResizeBase m) := by
        obtain ⟨hc2, hlen, hload, hcnt⟩ := hm
        refine ⟨by show 2 ≤ 2 * m.capacity; omega, ?_, by show 10 * 0 ≤ _; omega, ?_⟩
        · show (List.replicate (2 * m.capacity) ([] : List (K × V))).length = 2 * m.capacity
          simp
        · rw [chResizeBase_entry]
          exact Nat.zero_le _
      have hfold := chFold_inv g (fun a k v b => chInsertF_inv g a k v b)
        (chEntries m) (chResizeBase m) m1 hbase hpre
      exact ⟨m1, hfold.1, hcore.symm, fun hng => absurd hguard hng⟩
    · rw [if_neg hguard] at hpre
      have hm1 : m1 = m := by simpa using hpre.symm
      subst hm1
      exact ⟨m1, hm, hcore.symm, fun _ => rfl⟩

theorem chInsertF_get [DecidableEq K] {f : Nat} {m m' : ChMap K V} {k : K} {v : V}
    (hm : ChInv m) (h : chInsertF f m k v = some m') : chGet m' k = some (some v) := by
  obtain ⟨m1, hi1, hcore, -⟩ := chInsertF_dest hm h
  subst hcore
  exact chGet_chInsertCore m1 k v (by obtain ⟨h2, -, -, -⟩ := hi1; omega) hi1.2.1

theorem chInsertCore_size_of_present [DecidableEq K] {m : ChMap K V} {k : K} {w : V} (v : V)
    (hget : chGet m k = some (some w)) : (chInsertCore m k v).size = m.size := by
  unfold chGet at hget
  rw [Option.map_eq_some'] at hget
  obtain ⟨b, hb, hlb⟩ := hget
  have hfalse := listInsert_false_of_get b k v w (by simpa using hlb)
  unfold chInsertCore
  rw [hb]
  dsimp only
  simp [hfalse]

theorem chDelete_inv [DecidableEq K] (m : ChMap K V) (k : K) (hm : ChInv m) :
    ChInv (chDelete m k) := by
  obtain ⟨h2, hlen, hload, hcnt⟩ := hm
  unfold chDelete
  cases hb : m.buckets.get? (chHash m k) with
  | none => exact ⟨h2, hlen, hload, hcnt⟩
  | some b =>
    dsimp only
    refine ⟨h2, by simpa using hlen, hload, ?_⟩
    have hsum := map_sum_set List.length m.buckets (chHash m k) (listDelete b k) b hb
    have hdel := listDelete_length_le b k
    show ((m.buckets.set (chHash m k) (listDelete b k)).map List.length).sum ≤ m.size
    unfold chEntryCount at hcnt
    omega

/-! ## Capacity/size bounds of the open-addressing loops -/

theorem oaInsertLoop_cs (m : OAMap K V) (k : K) (v : V) :
    ∀ (f ci : Nat), (oaInsertLoop m k v f ci).1.capacity = m.capacity ∧
      (oaInsertLoop m k v f ci).1.size ≤ m.size + 1 := by
  intro f
  induction f with
  | zero => intro ci; exact ⟨rfl, Nat.le_succ _⟩
  | succ g ih =>
    intro ci
    simp only [oaInsertLoop]
    cases hd : m.data.get? ci with
    | none => exact ⟨rfl, Nat.le_succ _⟩
    | some e =>
      cases e with
      | empty => exact ⟨rfl, Nat.le_refl _⟩
      | deleted k0 => exact ⟨rfl, Nat.le_refl _⟩
      | occupied k0 v0 => exact ih _

theorem oaDeleteLoop_cs [DecidableEq K] (m : OAMap K V) (k : K) :
    ∀ (f ci : Nat), (oaDeleteLoop m k f ci).1.capacity = m.capacity ∧
      (oaDeleteLoop m k f ci).1.size ≤ m.size := by
  intro f
  induction f with
  | zero => intro ci; exact ⟨rfl, Nat.le_refl _⟩
  | succ g ih =>
    intro ci
    simp only [oaDeleteLoop]
    cases hd : m.data.get? ci with
    | none => exact ⟨rfl, Nat.le_refl _⟩
    | some e =>
      cases e with
      | empty => exact ⟨rfl, Nat.le_refl _⟩
      | deleted k0 =>
        dsimp only
        by_cases hk : k0 = k
        · rw [if_pos hk]; exact ⟨rfl, Nat.le_refl _⟩
        · rw [if_neg hk]; exact ih _
      | occupied k0 v0 =>
        dsimp only
        by_cases hk : k0 = k
        · rw [if_pos hk]; exact ⟨rfl, Nat.sub_le _ _⟩
        · rw [if_neg hk]; exact ih _

theorem cInsertLoop_cs [DecidableEq K] (m : CMap K V) (k : K) (v : V) :
    ∀ (f ci : Nat), (cInsertLoop m k v f ci).1.capacity = m.capacity ∧
      (cInsertLoop m k v f ci).1.size ≤ m.size + 1 := by
  intro f
  induction f with
  | zero => intro ci; exact ⟨rfl, Nat.le_succ _⟩
  | succ g ih =>
    intro ci
    simp only [cInsertLoop]
    by_cases h01 : cGetStatus m ci = 0 ∨ cGetStatus m ci = 1
    · rw [if_pos h01]; exact ⟨rfl, Nat.le_refl _⟩
    · rw [if_neg h01]
      by_cases h3 : cGetStatus m ci = 3
      · rw [if_pos h3]
        cases he : m.entries.get? ci with
        | none => exact ⟨rfl, Nat.le_succ _⟩
        | some p =>
          obtain ⟨k0, v0⟩ := p
          dsimp only
          by_cases hk : k0 = k
          · rw [if_pos hk]; exact ⟨rfl, Nat.le_succ _⟩
          · rw [if_neg hk]; exact ih _
      · rw [if_neg h3]; exact ⟨rfl, Nat.le_succ _⟩

theorem cDeleteLoop_cs [DecidableEq K] (m : CMap K V) (k : K) :
    ∀ (f ci : Nat), (cDeleteLoop m k f ci).1.capacity = m.capacity ∧
      (cDeleteLoop m k f ci).1.size ≤ m.size := by
  intro f
  induction f with
  | zero => intro ci; exact ⟨rfl, Nat.le_refl _⟩
  | succ g ih =>
    intro ci
    simp only [cDeleteLoop]
    by_cases h0 : cGetStatus m ci = 0
    · rw [if_pos h0]; exact ⟨rfl, Nat.le_refl _⟩
    · rw [if_neg h0]
      by_cases h3 : cGetStatus m ci = 3
      · rw [if_pos h3]
        cases he : m.entries.get? ci with
        | none => exact ⟨rfl, Nat.le_refl _⟩
        | some p =>
          obtain ⟨k0, v0⟩ := p
          dsimp only
          by_cases hk : k0 = k
          · rw [if_pos hk]; exact ⟨rfl, Nat.sub_le _ _⟩
          · rw [if_neg hk]; exact ih _
      · rw [if_neg h3]
        by_cases h1 : cGetStatus m ci = 1
        · rw [if_pos h1]; exact ih _
        · rw [if_neg h1]; exact ⟨rfl, Nat.le_refl _⟩

/-! ## Reachable-state invariants -/

theorem oaReach_inv [DecidableEq K] {m : OAMap K V} (h : OAReach m) :
    2 ≤ m.capacity ∧ 10 * m.size ≤ 7 * m.capacity + 9 := by
  induction h with
  | new hf n =>
    have h16 : 16 ≤ newCapacity n := Nat.le_max_left _ _
    exact ⟨by show 2 ≤ newCapacity n; omega, by show 10 * 0 ≤ 7 * newCapacity n + 9; omega⟩
  | ins m m' b k v hr heq ih =>
    unfold oaInsert at heq
    by_cases hg : 7 * m.capacity ≤ 10 * m.size
    · rw [if_pos hg, Option.map_eq_some'] at heq
      obtain ⟨m1, hres, hloop⟩ := heq
      obtain ⟨hrs, hrc, _⟩ := oaResize_fields hres
      have hcs := oaInsertLoop_cs m1 k v m1.capacity (oaHash m1 k)
      rw [hloop] at hcs
      dsimp at hcs
      omega
    · rw [if_neg hg] at heq
      have hloop : oaInsertLoop m k v m.capacity (oaHash m k) = (m', b) := by
        simpa using heq
      have hcs := oaInsertLoop_cs m k v m.capacity (oaHash m k)
      rw [hloop] at hcs
      dsimp at hcs
      omega
  | del m k hr ih =>
    unfold oaDelete
    have hcs := oaDeleteLoop_cs m k m.capacity (oaHash m k)
    omega

theorem cReach_inv [DecidableEq K] [Inhabited K] [Inhabited V] {m : CMap K V}
    (h : CReach m) : 2 ≤ m.capacity ∧ 10 * m.size ≤ 7 * m.capacity + 9 := by
  induction h with
  | new hf n =>
    have h16 : 16 ≤ newCapacity n := Nat.le_max_left _ _
    exact ⟨by show 2 ≤ newCapacity n; omega, by show 10 * 0 ≤ 7 * newCapacity n + 9; omega⟩
  | ins m m' b k v hr heq ih =>
    unfold cInsert at heq
    by_cases hg : 7 * m.capacity ≤ 10 * m.size
    · rw [if_pos hg, Option.map_eq_some'] at heq
      obtain ⟨m1, hres, hloop⟩ := heq
      obtain ⟨hrs, hrc, _⟩ := cResize_fields hres
      have hcs := cInsertLoop_cs m1 k v m1.capacity (cHash m1 k)
      rw [hloop] at hcs
      dsimp at hcs
      omega
    · rw [if_neg hg] at heq
      have hloop : cInsertLoop m k v m.capacity (cHash m k) = (m', b) := by
        simpa using heq
      have hcs := cInsertLoop_cs m k v m.capacity (cHash m k)
      rw [hloop] at hcs
      dsimp at hcs
      omega
  | del m k hr ih =>
    unfold cDelete
    have hcs := cDeleteLoop_cs m k m.capacity (cHash m k)
    omega

theorem chReach_inv [DecidableEq K] {m : ChMap K V} (h : ChReach m) : ChInv m := by
  induction h with
  | new hf n =>
    have h16 : 16 ≤ newCapacity n := Nat.le_max_left _ _
    refine ⟨by show 2 ≤ newCapacity n; omega, ?_,
      by show 10 * 0 ≤ 7 * newCapacity n + 9; omega, ?_⟩
    · show (List.replicate (newCapacity n) ([] : List (K × V))).length = newCapacity n
      simp
    · show chEntryCount (chNew hf n) ≤ 0
      unfold chEntryCount chNew
      simp
  | ins f m m' k v hr heq ih => exact (chInsertF_inv f m k v m' ih heq).1
  | del m k hr ih => exact chDelete_inv m k ih

theorem chReach_foldl (l : List Nat) :
    ∀ (m0 m1 : ChMap Nat Nat), ChReach m0 →
      List.foldlM (fun m i => chInsertF 1 m i i) m0 l = some m1 → ChReach m1 := by
  induction l with
  | nil =>
    intro m0 m1 h0 hfold
    simp [List.foldlM] at hfold
    subst hfold
    exact h0
  | cons i t ihl =>
    intro m0 m1 h0 hfold
    rw [List.foldlM_cons] at hfold
    cases ha : chInsertF 1 m0 i i with
    | none => rw [ha] at hfold; simp at hfold
    | some a =>
      rw [ha] at hfold
      rw [show ((some a >>= fun b => List.foldlM (fun m i => chInsertF 1 m i i) b t)
        = List.foldlM (fun m i => chInsertF 1 m i i) a t) from rfl] at hfold
      exact ihl a m1 (ChReach.ins 1 m0 a i i h0 ha) hfold

/-! ## Claim C2 -/

/-- Claim C2 counterexample: twelve inserts of distinct keys into a fresh
chained table of capacity 16 all complete without a resize, and the final
(reachable) state has `size / capacity = 12/16 = 0.75 > 0.7`: the claim
`10 * size ≤ 7 * capacity` fails after the twelfth insert completes. -/
theorem c2_load_factor_cex :
    c2cexRes = some c2cexMap ∧ ChReach c2cexMap ∧
      10 * c2cexMap.size = 120 ∧ 7 * c2cexMap.capacity = 112 := by
  have h1 : c2cexRes = some c2cexMap := rfl
  have h2 : ChReach c2cexMap :=
    chReach_foldl (List.range 12) (chNew (fun k => k) 16) c2cexMap
      (ChReach.new (fun k => k) 16) h1
  exact ⟨h1, h2, by decide, by decide⟩

/-- Claim C2 (amended): for every engine and every sequence of operations,
the load factor after an insert completes can exceed 0.7 by at most one
slot (the pre-insert check only guarantees it was below 0.7 before the
insertion): every reachable state satisfies
`10 * size ≤ 7 * capacity + 9`, i.e. `size / capacity < 0.7 + 1/capacity`,
and this bound is tight. -/
theorem c2_amended [DecidableEq K] [Inhabited K] [Inhabited V] :
    (∀ m : OAMap K V, OAReach m → 2 ≤ m.capacity ∧ 10 * m.size ≤ 7 * m.capacity + 9) ∧
    (∀ m : ChMap K V, ChReach m → 2 ≤ m.capacity ∧ 10 * m.size ≤ 7 * m.capacity + 9) ∧
    (∀ m : CMap K V, CReach m → 2 ≤ m.capacity ∧ 10 * m.size ≤ 7 * m.capacity + 9) := by
  refine ⟨fun m h => oaReach_inv h, fun m h => ?_, fun m h => cReach_inv h⟩
  have := chReach_inv h
  exact ⟨this.1, this.2.2.1⟩

theorem c2_amended_witness :
    (2 ≤ (oaNew (V := Nat) (fun k : Nat => k) 0).capacity ∧
      10 * (oaNew (V := Nat) (fun k : Nat => k) 0).size
        ≤ 7 * (oaNew (V := Nat) (fun k : Nat => k) 0).capacity + 9) ∧
    (2 ≤ c2cexMap.capacity ∧ 10 * c2cexMap.size ≤ 7 * c2cexMap.capacity + 9) ∧
    (2 ≤ (cNew (V := Nat) (fun k : Nat => k) 0).capacity ∧
      10 * (cNew (V := Nat) (fun k : Nat => k) 0).size
        ≤ 7 * (cNew (V := Nat) (fun k : Nat => k) 0).capacity + 9) :=
  ⟨c2_amended.1 _ (OAReach.new _ 0),
   c2_amended.2.1 c2cexMap
     (chReach_foldl (List.range 12) (chNew (fun k => k) 16) c2cexMap
       (ChReach.new (fun k => k) 16) rfl),
   c2_amended.2.2 _ (CReach.new _ 0)⟩

/-! ## Compact-engine resize: well-formedness of the rebuilt arrays -/

theorem cResizeFold_none (m : CMap K V) (cap' : Nat) :
    ∀ l : List Nat, l.foldl (cResizeStep m cap') none = none := by
  intro l
  induction l with
  | nil => rfl
  | cons i t ihl =>
    rw [List.foldl_cons]
    exact ihl

theorem cResizeFold_some (m : CMap K V) (cap' : Nat)
    (P : List Nat × List (K × V) → Prop)
    (hstep : ∀ p i q, P p → cResizeStep m cap' (some p) i = some q → P q) :
    ∀ (l : List Nat) (p0 q : List Nat × List (K × V)), P p0 →
      l.foldl (cResizeStep m cap') (some p0) = some q → P q := by
  intro l
  induction l with
  | nil =>
    intro p0 q h0 hf
    simp at hf
    subst hf
    exact h0
  | cons i t ihl =>
    intro p0 q h0 hf
    rw [List.foldl_cons] at hf
    cases hs : cResizeStep m cap' (some p0) i with
    | none =>
      rw [hs, cResizeFold_none] at hf
      simp at hf
    | some p1 =>
      rw [hs] at hf
      exact ihl p1 q (hstep p0 i p1 h0 hs) hf

theorem cResizeStep_wf (m : CMap K V) (cap' : Nat) (p : List Nat × List (K × V)) (i : Nat)
    (q : List Nat × List (K × V))
    (hp : p.1.length = (cap' + 3) / 4 ∧ p.2.length = cap' ∧ ∀ b ∈ p.1, b < 256)
    (hq : cResizeStep m cap' (some p) i = some q) :
    q.1.length = (cap' + 3) / 4 ∧ q.2.length = cap' ∧ ∀ b ∈ q.1, b < 256 := by
  unfold cResizeStep at hq
  rw [Option.bind_eq_some] at hq
  obtain ⟨p', hp', hq⟩ := hq
  have hpe : p' = p := (Option.some.inj hp').symm
  rw [hpe] at hq
  by_cases hs : cGetStatus m i = 3
  · rw [if_pos hs] at hq
    cases he : m.entries.get? i with
    | none => rw [he] at hq; simp at hq
    | some kv =>
      rw [he] at hq
      rw [Option.map_eq_some'] at hq
      obtain ⟨j, hj, hqq⟩ := hq
      subst hqq
      exact ⟨by rw [statOr_length]; exact hp.1, by rw [List.length_set]; exact hp.2.1,
        statOr_bytes_lt _ _ hp.2.2⟩
  · rw [if_neg hs] at hq
    have hfin : p = q := Option.some.inj hq
    rw [← hfin]
    exact hp

theorem cResize_wf [Inhabited K] [Inhabited V] {m m' : CMap K V} (hw : CWf m)
    (h : cResize m = some m') : CWf m' := by
  obtain ⟨hcap, hel, hsl, hb⟩ := hw
  unfold cResize at h
  rw [Option.map_eq_some'] at h
  obtain ⟨p, hp, hm'⟩ := h
  have hP := cResizeFold_some m (m.capacity * 2)
    (fun p => p.1.length = (m.capacity * 2 + 3) / 4 ∧ p.2.length = m.capacity * 2 ∧
      ∀ b ∈ p.1, b < 256)
    (cResizeStep_wf m (m.capacity * 2)) (List.range m.capacity) _ p
    ⟨by simp, by simp, by intro b hb0; have := List.eq_of_mem_replicate hb0; omega⟩ hp
  subst hm'
  exact ⟨by show 0 < m.capacity * 2; omega, hP.2.1, hP.1, hP.2.2⟩

/-! ## Compact-engine insert: probe characterization and lookup walk -/

theorem cInsertLoop_found [DecidableEq K] {m : CMap K V} {k : K} {v : V} :
    ∀ (f ci : Nat), ci < m.capacity → ∀ (m' : CMap K V), cInsertLoop m k v f ci = (m', true) →
      ∃ t, t < f ∧
        (∀ u, u < t → ∃ k2 w2, k2 ≠ k ∧
          cGetStatus m ((ci + u) % m.capacity) = 3 ∧
          m.entries.get? ((ci + u) % m.capacity) = some (k2, w2)) ∧
        m'.entries = m.entries.set ((ci + t) % m.capacity) (k, v) ∧
        m'.capacity = m.capacity ∧ m'.hashFn = m.hashFn ∧
        (((cGetStatus m ((ci + t) % m.capacity) = 0 ∨
             cGetStatus m ((ci + t) % m.capacity) = 1) ∧
            m'.status_bits = statSet m.status_bits ((ci + t) % m.capacity) 3 ∧
            m'.size = m.size + 1) ∨
          (cGetStatus m ((ci + t) % m.capacity) = 3 ∧
            (∃ w, m.entries.get? ((ci + t) % m.capacity) = some (k, w)) ∧
            m'.status_bits = m.status_bits ∧ m'.size = m.size)) := by
  intro f
  induction f with
  | zero => intro ci _ m' h; simp [cInsertLoop] at h
  | succ g ih =>
    intro ci hci m' h
    have hci0 : (ci + 0) % m.capacity = ci := by rw [Nat.add_zero, Nat.mod_eq_of_lt hci]
    simp only [cInsertLoop] at h
    by_cases h01 : cGetStatus m ci = 0 ∨ cGetStatus m ci = 1
    · rw [if_pos h01] at h
      have hm' : _ = m' := (Prod.mk.injEq _ _ _ _ ▸ h).1
      subst hm'
      refine ⟨0, by omega, fun u hu => absurd hu (by omega), ?_, rfl, rfl, ?_⟩
      · rw [hci0]
      · exact Or.inl ⟨by rw [hci0]; exact h01, by rw [hci0], rfl⟩
    · rw [if_neg h01] at h
      by_cases h3 : cGetStatus m ci = 3
      · rw [if_pos h3] at h
        cases he : m.entries.get? ci with
        | none => rw [he] at h; simp at h
        | some p =>
          obtain ⟨k0, w⟩ := p
          rw [he] at h
          dsimp only at h
          by_cases hk : k0 = k
          · subst hk
            rw [if_pos rfl] at h
            have hm' : _ = m' := (Prod.mk.injEq _ _ _ _ ▸ h).1
            subst hm'
            refine ⟨0, by omega, fun u hu => absurd hu (by omega), ?_, rfl, rfl, ?_⟩
            · rw [hci0]
            · exact Or.inr ⟨by rw [hci0]; exact h3, ⟨w, by rw [hci0]; exact he⟩, rfl, rfl⟩
          · rw [if_neg hk] at h
            obtain ⟨t', ht', hpre', hent', hcap', hhf', hstop'⟩ :=
              ih ((ci + 1) % m.capacity) (Nat.mod_lt _ (by omega)) m' h
            refine ⟨t' + 1, by omega, ?_, ?_, hcap', hhf', ?_⟩
            · intro u hu
              cases u with
              | zero => exact ⟨k0, w, hk, by rw [hci0]; exact h3, by rw [hci0]; exact he⟩
              | succ u' =>
                obtain ⟨k2, w2, hk2, hs2, he2⟩ := hpre' u' (by omega)
                rw [probe_shift] at hs2 he2
                exact ⟨k2, w2, hk2, hs2, he2⟩
            · rw [probe_shift] at hent'
              exact hent'
            · rw [probe_shift] at hstop'
              exact hstop'
      · rw [if_neg h3] at h
        simp at h

theorem cGetWalk [DecidableEq K] {m : CMap K V} {k : K} {v : V} (hcap : 0 < m.capacity) :
    ∀ (t f ci : Nat), ci < m.capacity → t < f →
      (∀ u, u < t → ∃ k2 w2, k2 ≠ k ∧
        cGetStatus m ((ci + u) % m.capacity) = 3 ∧
        m.entries.get? ((ci + u) % m.capacity) = some (k2, w2)) →
      cGetStatus m ((ci + t) % m.capacity) = 3 →
      m.entries.get? ((ci + t) % m.capacity) = some (k, v) →
      cGetLoop m k f ci = some (some v) := by
  intro t
  induction t with
  | zero =>
    intro f ci hci hf hpre hs he
    cases f with
    | zero => omega
    | succ g =>
      have hci0 : (ci + 0) % m.capacity = ci := by rw [Nat.add_zero, Nat.mod_eq_of_lt hci]
      rw [hci0] at hs he
      simp only [cGetLoop]
      rw [if_neg (show ¬cGetStatus m ci = 0 by omega), if_pos hs, he]
      dsimp only
      rw [if_pos rfl]
  | succ t' ih =>
    intro f ci hci hf hpre hs he
    cases f with
    | zero => omega
    | succ g =>
      obtain ⟨k2, w2, hk2, hs0, he0⟩ := hpre 0 (by omega)
      have hci0 : (ci + 0) % m.capacity = ci := by rw [Nat.add_zero, Nat.mod_eq_of_lt hci]
      rw [hci0] at hs0 he0
      simp only [cGetLoop]
      rw [if_neg (show ¬cGetStatus m ci = 0 by omega), if_pos hs0, he0]
      dsimp only
      rw [if_neg hk2]
      apply ih g ((ci + 1) % m.capacity) (Nat.mod_lt _ (by omega)) (by omega)
      · intro u hu
        obtain ⟨k3, w3, hk3, hs3, he3⟩ := hpre (u + 1) (by omega)
        rw [probe_shift]
        exact ⟨k3, w3, hk3, hs3, he3⟩
      · rw [probe_shift]
        exact hs
      · rw [probe_shift]
        exact he

theorem cInsertLoopTop_get [DecidableEq K] {m m' : CMap K V} {k : K} {v : V}
    (hw : CWf m)
    (hloop : cInsertLoop m k v m.capacity (cHash m k) = (m', true)) :
    cGet m' k = some (some v) := by
  obtain ⟨hcap, hel, hsl, hb⟩ := hw
  have hstart : cHash m k < m.capacity := Nat.mod_lt _ hcap
  obtain ⟨t, ht, hpre, hent, hcapeq, hhf, hstop⟩ :=
    cInsertLoop_found m.capacity (cHash m k) hstart m' hloop
  have hpc : (cHash m k + t) % m.capacity < m.capacity := Nat.mod_lt _ hcap
  have hstart' : cHash m' k = cHash m k := by unfold cHash; rw [hhf, hcapeq]
  unfold cGet
  rw [hstart', hcapeq]
  apply cGetWalk (m := m') (k := k) (v := v) (by rw [hcapeq]; exact hcap) t m.capacity
    (cHash m k) (by rw [hcapeq]; exact hstart) ht
  · intro u hu
    obtain ⟨k2, w2, hk2, hsq, heq⟩ := hpre u hu
    have hne : (cHash m k + u) % m.capacity ≠ (cHash m k + t) % m.capacity :=
      probe_ne hu (by omega)
    refine ⟨k2, w2, hk2, ?_, ?_⟩
    · show statGet m'.status_bits ((cHash m k + u) % m'.capacity) = 3
      rw [hcapeq]
      rcases hstop with ⟨_, hsb, _⟩ | ⟨_, _, hsb, _⟩
      · rw [hsb, statGet_statSet_ne _ _ _ _ (by omega) (fun hh => hne hh.symm) hb]
        exact hsq
      · rw [hsb]
        exact hsq
    · rw [hcapeq, hent, lget_set_other _ _ _ _ (fun hh => hne hh.symm)]
      exact heq
  · show statGet m'.status_bits ((cHash m k + t) % m'.capacity) = 3
    rw [hcapeq]
    rcases hstop with ⟨_, hsb, _⟩ | ⟨hs3, _, hsb, _⟩
    · rw [hsb]
      exact statGet_statSet_eq _ _ _ (by omega) (by rw [hsl]; omega) hb
    · rw [hsb]
      exact hs3
  · rw [hcapeq, hent]
    exact lget_set_same _ _ _ (by rw [hel]; exact hpc)

/-! ## Claim C1 -/

/-- Claim C1 counterexample: in the plain probing engine two inserts of
key 5 occupy two slots (`get` then returns the first value 1, not 2, and
`size` counts the key twice); in the compact engine a tombstone in front
of the key's slot makes the re-insert of key 5 land on the tombstone, so
`size` stays 2 although key 5 is the only live key. -/
theorem c1_roundtrip_upsert_cex :
    (oaInsert c1pm0 5 1).map Prod.snd = some true ∧
    (oaInsert c1pm1 5 2).map Prod.snd = some true ∧
    oaGet c1pm2 5 = some (some 1) ∧
    c1pm2.size = 2 ∧
    (cInsert c1cm0 0 10).map Prod.snd = some true ∧
    (cInsert c1cm1 5 1).map Prod.snd = some true ∧
    (cDelete c1cm2 0).2 = true ∧
    (cInsert c1cm3 5 2).map Prod.snd = some true ∧
    cGet c1cm4 5 = some (some 2) ∧
    cGet c1cm4 0 = some none ∧
    c1cm4.size = 2 := by
  decide

/-- Claim C1 (amended): the chained engine satisfies the claim in full:
after `insert(k, v)` (with no intervening delete of k) `get(k)` returns
`Some(v)`; re-inserting k with v2 yields `get(k) = Some(v2)` and, when the
second insert does not trigger a resize, `size` is unchanged (k counted
once).  The compact engine still satisfies the round-trip part — any
successful `insert(k, v)` makes `get(k)` return `Some(v)` — but not the
size part (a tombstone on the probe path duplicates the key), and the
plain probing engine satisfies neither (its insert never upserts). -/
theorem c1_amended [DecidableEq K] [Inhabited K] [Inhabited V] :
    (∀ (f : Nat) (m m' : ChMap K V) (k : K) (v : V),
        ChInv m → chInsertF f m k v = some m' → chGet m' k = some (some v)) ∧
    (∀ (f f' : Nat) (m m1 m2 : ChMap K V) (k : K) (v1 v2 : V),
        ChInv m → chInsertF f m k v1 = some m1 → chInsertF f' m1 k v2 = some m2 →
        chGet m2 k = some (some v2) ∧
          (10 * m1.size < 7 * m1.capacity → m2.size = m1.size)) ∧
    (∀ (m m' : CMap K V) (k : K) (v : V),
        CWf m → cInsert m k v = some (m', true) → cGet m' k = some (some v)) := by
  refine ⟨fun f m m' k v hm h => chInsertF_get hm h, ?_, ?_⟩
  · intro f f' m m1 m2 k v1 v2 hm h1 h2
    have hi1 : ChInv m1 := (chInsertF_inv f m k v1 m1 hm h1).1
    refine ⟨chInsertF_get hi1 h2, ?_⟩
    intro hlt
    obtain ⟨m1', hi1', hcore, hng⟩ := chInsertF_dest hi1 h2
    have hm1' : m1' = m1 := hng (by omega)
    subst hm1'
    subst hcore
    exact chInsertCore_size_of_present v2 (chInsertF_get hm h1)
  · intro m m' k v hw h
    unfold cInsert at h
    by_cases hg : 7 * m.capacity ≤ 10 * m.size
    · rw [if_pos hg, Option.map_eq_some'] at h
      obtain ⟨m1, hres, hloop⟩ := h
      exact cInsertLoopTop_get (cResize_wf hw hres) hloop
    · rw [if_neg hg] at h
      exact cInsertLoopTop_get hw (by simpa using h)

theorem c1_amended_witness :
    chGet c1wch 3 = some (some 7) ∧
    chGet c1wch2 3 = some (some 9) ∧
    c1wch2.size = c1wch.size ∧
    cGet c1cm1 0 = some (some 10) := by
  have h1 := c1_amended.1 1 (chNew (fun _ => 0) 16) c1wch 3 7 (by decide) rfl
  have h2 := c1_amended.2.1 1 1 (chNew (fun _ => 0) 16) c1wch c1wch2 3 7 9
    (by decide) rfl rfl
  have h3 := c1_amended.2.2 c1cm0 c1cm1 0 10 (by decide) rfl
  exact ⟨h1, h2.1, h2.2 (by decide), h3⟩

/-! ## Claim C5: resize machinery for the plain engine -/

theorem occKeys_mem {d : List (Entry K V)} :
    ∀ {j : Nat} {k : K} {v : V}, d.get? j = some (Entry.occupied k v) → k ∈ occKeys d := by
  induction d with
  | nil => intro j k v h; simp [List.get?] at h
  | cons e t ih =>
    intro j k v h
    cases j with
    | zero =>
      have he : e = Entry.occupied k v := by simpa using h
      subst he
      show k ∈ List.filterMap _ (Entry.occupied k v :: t)
      rw [List.filterMap_cons]
      simp
    | succ j' =>
      have ht : t.get? j' = some (Entry.occupied k v) := h
      have := ih ht
      show k ∈ List.filterMap _ (e :: t)
      rw [List.filterMap_cons]
      cases e with
      | empty => simpa [occKeys] using this
      | deleted k0 => simpa [occKeys] using this
      | occupied k0 v0 => simp [occKeys] at this ⊢; exact Or.inr this

theorem occKeys_cons_occ (k : K) (v : V) (t : List (Entry K V)) :
    occKeys (Entry.occupied k v :: t) = k :: occKeys t := rfl

theorem occKeys_cons_nonocc {e : Entry K V} (t : List (Entry K V)) (h : isOccB e = false) :
    occKeys (e :: t) = occKeys t := by
  cases e with
  | empty => rfl
  | deleted k0 => rfl
  | occupied k0 v0 => simp [isOccB] at h

theorem occKeys_nodup_pos {d : List (Entry K V)} (hnd : (occKeys d).Nodup) :
    ∀ (p q : Nat) (k : K) (v w : V), d.get? p = some (Entry.occupied k v) →
      d.get? q = some (Entry.occupied k w) → p = q ∧ v = w := by
  induction d with
  | nil => intro p q k v w hp _; simp [List.get?] at hp
  | cons e t ih =>
    intro p q k v w hp hq
    have hndt : (occKeys t).Nodup := by
      cases he : isOccB e
      · rwa [occKeys_cons_nonocc t he] at hnd
      · cases e with
        | occupied k0 v0 =>
          rw [occKeys_cons_occ] at hnd
          exact hnd.of_cons
        | empty => simp [isOccB] at he
        | deleted k1 => simp [isOccB] at he
    cases p with
    | zero =>
      have he : e = Entry.occupied k v := by simpa using hp
      subst he
      cases q with
      | zero =>
        have hw : Entry.occupied k v = Entry.occupied k w := by simpa using hq
        injection hw with h1 h2
        exact ⟨rfl, h2⟩
      | succ q' =>
        exfalso
        rw [occKeys_cons_occ] at hnd
        have hmem : k ∈ occKeys t := occKeys_mem (d := t) hq
        exact (List.nodup_cons.mp hnd).1 hmem
    | succ p' =>
      cases q with
      | zero =>
        exfalso
        have he : e = Entry.occupied k w := by simpa using hq
        subst he
        rw [occKeys_cons_occ] at hnd
        have hmem : k ∈ occKeys t := occKeys_mem (d := t) hp
        exact (List.nodup_cons.mp hnd).1 hmem
      | succ q' =>
        obtain ⟨hpq, hvw⟩ := ih hndt p' q' k v w hp hq
        exact ⟨by rw [hpq], hvw⟩

theorem occCount_le_length (d : List (Entry K V)) : occCount d ≤ d.length :=
  List.countP_le_length _

theorem occCount_set {d : List (Entry K V)} :
    ∀ {j : Nat} {e : Entry K V} (k : K) (v : V), d.get? j = some e → isOccB e = false →
      occCount (d.set j (Entry.occupied k v)) = occCount d + 1 := by
  induction d with
  | nil => intro j e k v h _; simp [List.get?] at h
  | cons x t ih =>
    intro j e k v h hne
    cases j with
    | zero =>
      have hx : x = e := by simpa using h
      subst hx
      show List.countP isOccB (Entry.occupied k v :: t) = List.countP isOccB (x :: t) + 1
      rw [List.countP_cons, List.countP_cons]
      have hocc : isOccB (Entry.occupied k v) = true := rfl
      rw [hocc, hne]
      simp
    | succ j' =>
      have ht : t.get? j' = some e := h
      show occCount (x :: t.set j' (Entry.occupied k v)) = occCount (x :: t) + 1
      unfold occCount
      rw [List.countP_cons, List.countP_cons]
      have hih := ih k v ht hne
      unfold occCount at hih
      omega

theorem occCount_exists_nonocc :
    ∀ (d : List (Entry K V)), occCount d < d.length →
      ∃ p e, p < d.length ∧ d.get? p = some e ∧ isOccB e = false := by
  intro d
  induction d with
  | nil => intro h; simp [occCount] at h
  | cons x t ih =>
    intro h
    cases hx : isOccB x
    · exact ⟨0, x, by simp, rfl, hx⟩
    · have hcount : occCount (x :: t) = occCount t + 1 := by
        show List.countP isOccB (x :: t) = _
        rw [List.countP_cons]
        rw [hx]
        show List.countP isOccB t + 1 = occCount t + 1
        rfl
      have : occCount t < t.length := by
        have hl : (x :: t).length = t.length + 1 := rfl
        omega
      obtain ⟨p, e, hp, he, hne⟩ := ih this
      exact ⟨p + 1, e, by simp; omega, he, hne⟩

theorem occCount_replicate_empty (n : Nat) :
    occCount (List.replicate n (Entry.empty : Entry K V)) = 0 := by
  induction n with
  | zero => rfl
  | succ g ih =>
    show List.countP isOccB (Entry.empty :: List.replicate g Entry.empty) = 0
    rw [List.countP_cons]
    have h0 : isOccB (Entry.empty : Entry K V) = false := rfl
    rw [h0]
    show occCount (List.replicate g (Entry.empty : Entry K V)) + 0 = 0
    omega

theorem mem_iff_lget {α : Type} (a : α) :
    ∀ (l : List α), a ∈ l ↔ ∃ i, l.get? i = some a := by
  intro l
  induction l with
  | nil => simp [List.get?]
  | cons x t ih =>
    constructor
    · intro h
      rcases List.mem_cons.mp h with h | h
      · exact ⟨0, by simp [h]⟩
      · obtain ⟨i, hi⟩ := ih.mp h
        exact ⟨i + 1, hi⟩
    · rintro ⟨i, hi⟩
      cases i with
      | zero =>
        have : x = a := by simpa using hi
        simp [this]
      | succ i' =>
        have : t.get? i' = some a := hi
        exact List.mem_cons_of_mem _ (ih.mpr ⟨i', this⟩)

theorem oaFindSlot_spec {d : List (Entry K V)} {cap : Nat}
    (hlen : d.length = cap) (hcap : 0 < cap) :
    ∀ (f start : Nat), start < cap →
      (∃ t, t < f ∧ ∃ e, d.get? ((start + t) % cap) = some e ∧ isOccB e = false) →
      ∃ j tt, oaFindSlot d cap f start = some j ∧ tt < f ∧ j = (start + tt) % cap ∧
        (∀ u, u < tt → ∃ k2 v2, d.get? ((start + u) % cap) = some (Entry.occupied k2 v2)) ∧
        ∃ e, d.get? j = some e ∧ isOccB e = false := by
  intro f
  induction f with
  | zero => intro start _ h; obtain ⟨t, ht, _⟩ := h; omega
  | succ g ih =>
    intro start hstart hex
    have hs0 : (start + 0) % cap = start := by rw [Nat.add_zero, Nat.mod_eq_of_lt hstart]
    obtain ⟨e0, he0⟩ := lget_lt d start (by omega)
    cases hocc : isOccB e0
    · refine ⟨start, 0, ?_, by omega, hs0.symm, fun u hu => absurd hu (by omega),
        e0, he0, hocc⟩
      simp only [oaFindSlot]
      rw [he0]
      cases e0 with
      | empty => rfl
      | deleted k0 => rfl
      | occupied k0 v0 => simp [isOccB] at hocc
    · obtain ⟨k0, v0, he00⟩ : ∃ k0 v0, e0 = Entry.occupied k0 v0 := by
        cases e0 with
        | empty => simp [isOccB] at hocc
        | deleted k1 => simp [isOccB] at hocc
        | occupied k0 v0 => exact ⟨k0, v0, rfl⟩
      subst he00
      obtain ⟨t, ht, e, he, hne⟩ := hex
      have ht0 : t ≠ 0 := by
        intro h0
        subst h0
        rw [hs0] at he
        rw [he0] at he
        have : Entry.occupied k0 v0 = e := by injection he
        rw [← this] at hne
        simp [isOccB] at hne
      obtain ⟨t', rfl⟩ : ∃ t', t = t' + 1 := ⟨t - 1, by omega⟩
      have hex' : ∃ t2, t2 < g ∧ ∃ e, d.get? (((start + 1) % cap + t2) % cap) = some e ∧
          isOccB e = false := by
        refine ⟨t', by omega, e, ?_, hne⟩
        rw [probe_shift]
        exact he
      obtain ⟨j, tt, hfind, htt, hjpos, hpref, hfin⟩ :=
        ih ((start + 1) % cap) (Nat.mod_lt _ (by omega)) hex'
      refine ⟨j, tt + 1, ?_, by omega, ?_, ?_, hfin⟩
      · simp only [oaFindSlot]
        rw [he0]
        exact hfind
      · rw [← probe_shift]
        exact hjpos
      · intro u hu
        cases u with
        | zero => exact ⟨k0, v0, by rw [hs0]; exact he0⟩
        | succ u' =>
          obtain ⟨k2, v2, h2⟩ := hpref u' (by omega)
          rw [probe_shift] at h2
          exact ⟨k2, v2, h2⟩

theorem oaGetWalk [DecidableEq K] {m : OAMap K V} {k : K} {v : V} (hcap : 0 < m.capacity) :
    ∀ (t f ci : Nat), ci < m.capacity → t < f →
      (∀ u, u < t → ∃ k2 v2, k2 ≠ k ∧
        m.data.get? ((ci + u) % m.capacity) = some (Entry.occupied k2 v2)) →
      m.data.get? ((ci + t) % m.capacity) = some (Entry.occupied k v) →
      oaGetLoop m k f ci = some (some v) := by
  intro t
  induction t with
  | zero =>
    intro f ci hci hf hpre he
    cases f with
    | zero => omega
    | succ g =>
      have hci0 : (ci + 0) % m.capacity = ci := by rw [Nat.add_zero, Nat.mod_eq_of_lt hci]
      rw [hci0] at he
      simp only [oaGetLoop]
      rw [he]
      dsimp only
      rw [if_pos rfl]
  | succ t' ih =>
    intro f ci hci hf hpre he
    cases f with
    | zero => omega
    | succ g =>
      obtain ⟨k2, v2, hk2, he0⟩ := hpre 0 (by omega)
      have hci0 : (ci + 0) % m.capacity = ci := by rw [Nat.add_zero, Nat.mod_eq_of_lt hci]
      rw [hci0] at he0
      simp only [oaGetLoop]
      rw [he0]
      dsimp only
      rw [if_neg hk2]
      apply ih g ((ci + 1) % m.capacity) (Nat.mod_lt _ (by omega)) (by omega)
      · intro u hu
        obtain ⟨k3, v3, hk3, h3⟩ := hpre (u + 1) (by omega)
        rw [probe_shift]
        exact ⟨k3, v3, hk3, h3⟩
      · rw [probe_shift]
        exact he

/-- Master invariant of the plain `resize` re-insertion fold: starting
from a tombstone-free array `d` with distinct keys and probe-reachable
occupied cells, folding the remaining old entries `l` (whose occupied
keys are distinct and fresh) succeeds and preserves all of it, adding
exactly the occupied entries of `l`. -/
theorem oaResizeFold (hf : K → Nat) (cap' : Nat) (hcap' : 0 < cap') :
    ∀ (l d : List (Entry K V)),
      d.length = cap' →
      (∀ (p : Nat) (k0 : K), d.get? p ≠ some (Entry.deleted k0)) →
      (∀ (p q : Nat) (k : K) (v w : V), d.get? p = some (Entry.occupied k v) →
        d.get? q = some (Entry.occupied k w) → p = q ∧ v = w) →
      (∀ (p : Nat) (k : K) (v : V), d.get? p = some (Entry.occupied k v) →
        ∃ t, t < cap' ∧ p = (hf k % cap' + t) % cap' ∧
          ∀ u, u < t → ∃ k2 v2,
            d.get? ((hf k % cap' + u) % cap') = some (Entry.occupied k2 v2)) →
      (occKeys l).Nodup →
      (∀ k : K, (∃ (p : Nat) (v : V), d.get? p = some (Entry.occupied k v)) →
        ¬ k ∈ occKeys l) →
      occCount d + (occKeys l).length ≤ cap' →
      ∃ d', List.foldl (oaResizeStep hf cap') (some d) l = some d' ∧
        d'.length = cap' ∧
        (∀ (p : Nat) (k0 : K), d'.get? p ≠ some (Entry.deleted k0)) ∧
        (∀ (p q : Nat) (k : K) (v w : V), d'.get? p = some (Entry.occupied k v) →
          d'.get? q = some (Entry.occupied k w) → p = q ∧ v = w) ∧
        (∀ (p : Nat) (k : K) (v : V), d'.get? p = some (Entry.occupied k v) →
          ∃ t, t < cap' ∧ p = (hf k % cap' + t) % cap' ∧
            ∀ u, u < t → ∃ k2 v2,
              d'.get? ((hf k % cap' + u) % cap') = some (Entry.occupied k2 v2)) ∧
        (∀ (k : K) (v : V), (∃ p, d'.get? p = some (Entry.occupied k v)) ↔
          ((∃ p, d.get? p = some (Entry.occupied k v)) ∨ Entry.occupied k v ∈ l)) := by
  intro l
  induction l with
  | nil =>
    intro d hlen hnt hdist hreach _ _ _
    refine ⟨d, rfl, hlen, hnt, hdist, hreach, ?_⟩
    intro k v
    simp
  | cons e t ihl =>
    intro d hlen hnt hdist hreach hnd hdisj hbudget
    cases he : isOccB e
    · -- empty or tombstone in the old table: dropped
      have hocck : occKeys (e :: t) = occKeys t := occKeys_cons_nonocc t he
      have hstep : oaResizeStep hf cap' (some d) e = some d := by
        cases e with
        | empty => rfl
        | deleted k0 => rfl
        | occupied k0 v0 => simp [isOccB] at he
      obtain ⟨d', hfold, hlen', hnt', hdist', hreach', hcontent'⟩ :=
        ihl d hlen hnt hdist hreach (by rwa [hocck] at hnd)
          (fun k hk => by rw [← hocck]; exact hdisj k hk)
          (by rw [← hocck]; exact hbudget)
      refine ⟨d', by rw [List.foldl_cons, hstep]; exact hfold, hlen', hnt', hdist', hreach', ?_⟩
      intro k v
      rw [hcontent' k v]
      constructor
      · rintro (h | h)
        · exact Or.inl h
        · exact Or.inr (List.mem_cons_of_mem _ h)
      · rintro (h | h)
        · exact Or.inl h
        · rcases List.mem_cons.mp h with h | h
          · exfalso
            rw [← h] at he
            simp [isOccB] at he
          · exact Or.inr h
    · -- occupied old entry: place it in the new array
      obtain ⟨k, v, rfl⟩ : ∃ k v, e = Entry.occupied k v := by
        cases e with
        | empty => simp [isOccB] at he
        | deleted k0 => simp [isOccB] at he
        | occupied k0 v0 => exact ⟨k0, v0, rfl⟩
      have hocck : occKeys (Entry.occupied k v :: t) = k :: occKeys t := occKeys_cons_occ k v t
      rw [hocck] at hnd hdisj hbudget
      have hk_nott : ¬ k ∈ occKeys t := (List.nodup_cons.mp hnd).1
      have hnd_t : (occKeys t).Nodup := (List.nodup_cons.mp hnd).2
      have hknotd : ¬ ∃ (p : Nat) (v' : V), d.get? p = some (Entry.occupied k v') := by
        intro hcell
        exact hdisj k hcell (List.mem_cons_self _ _)
      -- find a free slot for k
      have hcountlt : occCount d < cap' := by
        simp only [List.length_cons] at hbudget
        omega
      obtain ⟨p0, e0x, hp0, he0x, hne0x⟩ := occCount_exists_nonocc d (by omega)
      obtain ⟨t0, ht0, hpos0⟩ := @probe_surj (hf k % cap') p0 cap' hcap' (by omega)
      obtain ⟨j, tt, hfind, htt, hjpos, hpref, ej, hej, hejnonocc⟩ :=
        oaFindSlot_spec hlen hcap' cap' (hf k % cap') (Nat.mod_lt _ hcap')
          ⟨t0, ht0, e0x, by rw [hpos0]; exact he0x, hne0x⟩
      have hjlt : j < cap' := by rw [hjpos]; exact Nat.mod_lt _ hcap'
      have hjlen : j < d.length := by omega
      have hstep : oaResizeStep hf cap' (some d) (Entry.occupied k v)
          = some (d.set j (Entry.occupied k v)) := by
        show (oaFindSlot d cap' cap' (hf k % cap')).map
          (fun j => d.set j (Entry.occupied k v)) = _
        rw [hfind]
        rfl
      set d1 := d.set j (Entry.occupied k v) with hd1
      have hd1get_j : d1.get? j = some (Entry.occupied k v) := lget_set_same _ _ _ hjlen
      have hd1get_ne : ∀ q, q ≠ j → d1.get? q = d.get? q := by
        intro q hq
        exact lget_set_other _ _ _ _ (fun hh => hq hh.symm)
      -- invariants for the recursive call on d1
      have hlen1 : d1.length = cap' := by rw [hd1, List.length_set]; exact hlen
      have hnt1 : ∀ (p : Nat) (k0 : K), d1.get? p ≠ some (Entry.deleted k0) := by
        intro p k0 hcontra
        by_cases hpj : p = j
        · subst hpj
          rw [hd1get_j] at hcontra
          simp at hcontra
        · rw [hd1get_ne p hpj] at hcontra
          exact hnt p k0 hcontra
      have hdist1 : ∀ (p q : Nat) (k1 : K) (v1 w1 : V),
          d1.get? p = some (Entry.occupied k1 v1) →
          d1.get? q = some (Entry.occupied k1 w1) → p = q ∧ v1 = w1 := by
        intro p q k1 v1 w1 hp hq
        by_cases hpj : p = j
        · rw [hpj, hd1get_j] at hp
          injection hp with h1
          injection h1 with hk1 hv1
          subst hk1
          subst hv1
          by_cases hqj : q = j
          · rw [hqj, hd1get_j] at hq
            injection hq with h2
            injection h2 with h3 hw1
            exact ⟨hpj.trans hqj.symm, hw1⟩
          · exfalso
            rw [hd1get_ne q hqj] at hq
            exact hknotd ⟨q, w1, hq⟩
        · rw [hd1get_ne p hpj] at hp
          by_cases hqj : q = j
          · exfalso
            rw [hqj, hd1get_j] at hq
            injection hq with h2
            injection h2 with hk1 h4
            subst hk1
            exact hknotd ⟨p, v1, hp⟩
          · rw [hd1get_ne q hqj] at hq
            exact hdist p q k1 v1 w1 hp hq
      have hreach1 : ∀ (p : Nat) (k1 : K) (v1 : V),
          d1.get? p = some (Entry.occupied k1 v1) →
          ∃ tr, tr < cap' ∧ p = (hf k1 % cap' + tr) % cap' ∧
            ∀ u, u < tr → ∃ k2 v2,
              d1.get? ((hf k1 % cap' + u) % cap') = some (Entry.occupied k2 v2) := by
        intro p k1 v1 hp
        by_cases hpj : p = j
        · rw [hpj, hd1get_j] at hp
          injection hp with h1
          injection h1 with hk1 hv1
          subst hk1
          refine ⟨tt, by omega, hpj.trans hjpos, ?_⟩
          intro u hu
          obtain ⟨k2, v2, h2⟩ := hpref u hu
          have hne : (hf k % cap' + u) % cap' ≠ j := by
            rw [hjpos]
            exact probe_ne hu (by omega)
          rw [hd1get_ne _ hne]
          exact ⟨k2, v2, h2⟩
        · rw [hd1get_ne p hpj] at hp
          obtain ⟨tr, htr, hppos, hprefr⟩ := hreach p k1 v1 hp
          refine ⟨tr, htr, hppos, ?_⟩
          intro u hu
          obtain ⟨k2, v2, h2⟩ := hprefr u hu
          have hne : (hf k1 % cap' + u) % cap' ≠ j := by
            intro heq
            rw [heq, hej] at h2
            have : ej = Entry.occupied k2 v2 := by injection h2
            rw [this] at hejnonocc
            simp [isOccB] at hejnonocc
          rw [hd1get_ne _ hne]
          exact ⟨k2, v2, h2⟩
      have hdisj1 : ∀ k1 : K,
          (∃ (p : Nat) (v' : V), d1.get? p = some (Entry.occupied k1 v')) →
          ¬ k1 ∈ occKeys t := by
        rintro k1 ⟨p, v', hp⟩
        by_cases hpj : p = j
        · subst hpj
          rw [hd1get_j] at hp
          injection hp with h1
          injection h1 with hk1 _
          subst hk1
          exact hk_nott
        · rw [hd1get_ne p hpj] at hp
          intro hmem
          exact hdisj k1 ⟨p, v', hp⟩ (List.mem_cons_of_mem _ hmem)
      have hbudget1 : occCount d1 + (occKeys t).length ≤ cap' := by
        have hcount1 : occCount d1 = occCount d + 1 := occCount_set k v hej hejnonocc
        simp only [List.length_cons] at hbudget
        omega
      obtain ⟨d', hfold, hlen', hnt', hdist', hreach', hcontent'⟩ :=
        ihl d1 hlen1 hnt1 hdist1 hreach1 hnd_t hdisj1 hbudget1
      refine ⟨d', by rw [List.foldl_cons, hstep]; exact hfold, hlen', hnt', hdist', hreach', ?_⟩
      intro k1 v1
      rw [hcontent' k1 v1]
      constructor
      · rintro (⟨p, hp⟩ | h)
        · by_cases hpj : p = j
          · subst hpj
            rw [hd1get_j] at hp
            injection hp with h1
            injection h1 with hk1 hv1
            subst hk1
            subst hv1
            exact Or.inr (List.mem_cons_self _ _)
          · rw [hd1get_ne p hpj] at hp
            exact Or.inl ⟨p, hp⟩
        · exact Or.inr (List.mem_cons_of_mem _ h)
      · rintro (⟨p, hp⟩ | h)
        · have hpj : p ≠ j := by
            intro heq
            rw [heq, hej] at hp
            have : ej = Entry.occupied k1 v1 := by injection hp
            rw [this] at hejnonocc
            simp [isOccB] at hejnonocc
          refine Or.inl ⟨p, ?_⟩
          rw [hd1get_ne p hpj]
          exact hp
        · rcases List.mem_cons.mp h with h | h
          · injection h with hk1 hv1
            subst hk1
            subst hv1
            exact Or.inl ⟨j, hd1get_j⟩
          · exact Or.inr h

theorem replicate_empty_get {n p : Nat} {e : Entry K V}
    (h : (List.replicate n (Entry.empty : Entry K V)).get? p = some e) : e = Entry.empty := by
  have hp := lget_some_lt _ p _ h
  rw [List.length_replicate] at hp
  rw [lget_replicate n p _ hp] at h
  exact (Option.some.inj h).symm

theorem occKeys_length_le (d : List (Entry K V)) : (occKeys d).length ≤ d.length :=
  List.length_filterMap_le _ _

/-- Top-level specification of the plain engine's `resize`: it succeeds on
a well-formed table with distinct live keys, doubles the capacity, keeps
`size` and the hash function, produces a tombstone-free array holding
exactly the previously occupied entries, and `get` finds every live key. -/
theorem oaResize_spec [DecidableEq K] {m : OAMap K V} (hwf : OAWf m)
    (hnd : (occKeys m.data).Nodup) :
    ∃ m' : OAMap K V, oaResize m = some m' ∧
      m'.capacity = 2 * m.capacity ∧ m'.size = m.size ∧ m'.hashFn = m.hashFn ∧
      m'.data.length = m'.capacity ∧
      (∀ (p : Nat) (k0 : K), m'.data.get? p ≠ some (Entry.deleted k0)) ∧
      (∀ (k : K) (v : V),
        (∃ p, m'.data.get? p = some (Entry.occupied k v)) ↔
          ∃ p, m.data.get? p = some (Entry.occupied k v)) ∧
      (∀ (k : K) (v : V), (∃ p, m.data.get? p = some (Entry.occupied k v)) →
        oaGet m' k = some (some v)) := by
  obtain ⟨hcap, hlen⟩ := hwf
  have hcap' : 0 < 2 * m.capacity := by omega
  have hlen0 : (List.replicate (2 * m.capacity) (Entry.empty : Entry K V)).length
      = 2 * m.capacity := List.length_replicate _ _
  have hnt0 : ∀ (p : Nat) (k0 : K),
      (List.replicate (2 * m.capacity) (Entry.empty : Entry K V)).get? p
        ≠ some (Entry.deleted k0) := by
    intro p k0 hcontra
    exact Entry.noConfusion (replicate_empty_get hcontra)
  have hdist0 : ∀ (p q : Nat) (k : K) (v w : V),
      (List.replicate (2 * m.capacity) (Entry.empty : Entry K V)).get? p
        = some (Entry.occupied k v) →
      (List.replicate (2 * m.capacity) (Entry.empty : Entry K V)).get? q
        = some (Entry.occupied k w) → p = q ∧ v = w := by
    intro p q k v w hp _
    exact Entry.noConfusion (replicate_empty_get hp)
  have hreach0 : ∀ (p : Nat) (k : K) (v : V),
      (List.replicate (2 * m.capacity) (Entry.empty : Entry K V)).get? p
        = some (Entry.occupied k v) →
      ∃ t, t < 2 * m.capacity ∧
        p = (m.hashFn k % (2 * m.capacity) + t) % (2 * m.capacity) ∧
        ∀ u, u < t → ∃ k2 v2,
          (List.replicate (2 * m.capacity) (Entry.empty : Entry K V)).get?
            ((m.hashFn k % (2 * m.capacity) + u) % (2 * m.capacity))
            = some (Entry.occupied k2 v2) := by
    intro p k v hp
    exact Entry.noConfusion (replicate_empty_get hp)
  have hdisj0 : ∀ k : K,
      (∃ (p : Nat) (v : V),
        (List.replicate (2 * m.capacity) (Entry.empty : Entry K V)).get? p
          = some (Entry.occupied k v)) → ¬ k ∈ occKeys m.data := by
    rintro k ⟨p, v, hp⟩
    exact Entry.noConfusion (replicate_empty_get hp)
  have hbudget0 : occCount (List.replicate (2 * m.capacity) (Entry.empty : Entry K V))
      + (occKeys m.data).length ≤ 2 * m.capacity := by
    rw [occCount_replicate_empty]
    have h1 : (occKeys m.data).length ≤ m.data.length := occKeys_length_le m.data
    omega
  obtain ⟨d', hfold, hlen', hnt', hdist', hreach', hcontent'⟩ :=
    oaResizeFold m.hashFn (2 * m.capacity) hcap' m.data
      (List.replicate (2 * m.capacity) Entry.empty)
      hlen0 hnt0 hdist0 hreach0 hnd hdisj0 hbudget0
  refine ⟨{ m with data := d', capacity := 2 * m.capacity }, ?_, rfl, rfl, rfl, hlen', hnt',
    ?_, ?_⟩
  · simp only [oaResize]
    rw [hfold]
    rfl
  · intro k v
    show (∃ p, d'.get? p = some (Entry.occupied k v)) ↔ _
    rw [hcontent' k v]
    constructor
    · rintro (⟨p, hp⟩ | h)
      · exact Entry.noConfusion (replicate_empty_get hp)
      · exact (mem_iff_lget _ m.data).mp h
    · intro h
      exact Or.inr ((mem_iff_lget _ m.data).mpr h)
  · intro k v hold
    obtain ⟨p, hp⟩ : ∃ p, d'.get? p = some (Entry.occupied k v) := by
      rw [hcontent' k v]
      exact Or.inr ((mem_iff_lget _ m.data).mpr hold)
    obtain ⟨t, ht, hppos, hpref⟩ := hreach' p k v hp
    show oaGetLoop { m with data := d', capacity := 2 * m.capacity } k
      (2 * m.capacity) (m.hashFn k % (2 * m.capacity)) = some (some v)
    refine oaGetWalk (m := { m with data := d', capacity := 2 * m.capacity })
      (k := k) (v := v) hcap' t (2 * m.capacity) (m.hashFn k % (2 * m.capacity))
      (Nat.mod_lt _ hcap') ht ?_ ?_
    · intro u hu
      obtain ⟨k2, v2, h2⟩ := hpref u hu
      refine ⟨k2, v2, fun hk2 => ?_, h2⟩
      rw [hk2] at h2
      obtain ⟨heq, h4⟩ := hdist' p _ k v v2 hp h2
      exact probe_ne hu ht (heq.symm.trans hppos)
    · show d'.get? ((m.hashFn k % (2 * m.capacity) + t) % (2 * m.capacity))
        = some (Entry.occupied k v)
      rw [← hppos]
      exact hp

/-! ## Claim C5: resize machinery for the compact engine -/

theorem countP_congr_local {α : Type} (f g : α → Bool) :
    ∀ l : List α, (∀ a ∈ l, f a = g a) → l.countP f = l.countP g := by
  intro l
  induction l with
  | nil => intro h; rfl
  | cons x t ih =>
    intro h
    rw [List.countP_cons, List.countP_cons, h x (List.mem_cons_self _ _),
      ih (fun a ha => h a (List.mem_cons_of_mem _ ha))]

theorem countP_range_update (f g : Nat → Bool) :
    ∀ (n j : Nat), j < n → (∀ p, p < n → p ≠ j → f p = g p) →
      f j = false → g j = true →
      (List.range n).countP g = (List.range n).countP f + 1 := by
  intro n
  induction n with
  | zero => intro j hj _ _ _; omega
  | succ n ih =>
    intro j hj hagree hfj hgj
    rw [List.range_succ, List.countP_append, List.countP_append]
    by_cases hjn : j = n
    · have hagree' : (List.range n).countP g = (List.range n).countP f := by
        apply countP_congr_local
        intro a ha
        have han : a < n := List.mem_range.mp ha
        exact (hagree a (by omega) (by omega)).symm
      rw [hagree']
      subst hjn
      simp only [List.countP_cons, List.countP_nil, hfj, hgj]
      simp
    · have hjn' : j < n := by omega
      have hmain := ih j hjn' (fun p hp hpj => hagree p (by omega) hpj) hfj hgj
      rw [hmain]
      have hfn : f n = g n := hagree n (by omega) (fun h => hjn h.symm)
      have h1 : List.countP g [n] = List.countP f [n] := by
        rw [List.countP_cons, List.countP_cons, List.countP_nil, List.countP_nil, hfn]
      rw [h1]
      omega

theorem statCount_lt_exists {sb : List Nat} {cap : Nat} (h : statCount sb cap < cap) :
    ∃ p, p < cap ∧ statGet sb p ≠ 3 := by
  by_contra hall
  push_neg at hall
  have hc : statCount sb cap = cap := by
    unfold statCount
    have hd : ∀ p ∈ List.range cap, (fun p => decide (statGet sb p = 3)) p = true := by
      intro p hp
      exact decide_eq_true (hall p (List.mem_range.mp hp))
    rw [List.countP_eq_length.mpr hd, List.length_range]
  omega

theorem statCount_statOr {sb : List Nat} {cap j : Nat} (hj : j < cap)
    (hb : ∀ b ∈ sb, b < 256) (hlen : j / 4 < sb.length) (hz : statGet sb j = 0) :
    statCount (statOr sb j 3) cap = statCount sb cap + 1 := by
  unfold statCount
  refine countP_range_update (fun p => decide (statGet sb p = 3))
    (fun p => decide (statGet (statOr sb j 3) p = 3)) cap j hj ?_ ?_ ?_
  · intro p hp hpj
    show decide (statGet sb p = 3) = decide (statGet (statOr sb j 3) p = 3)
    rw [statGet_statOr_ne sb j p (fun h => hpj h.symm) hb]
  · show decide (statGet sb j = 3) = false
    rw [hz]
    rfl
  · show decide (statGet (statOr sb j 3) j = 3) = true
    rw [statGet_statOr_eq sb j hlen hb hz]
    rfl

theorem cFindSlot_spec (sb : List Nat) {cap : Nat} (hcap : 0 < cap) :
    ∀ (f start : Nat), start < cap →
      (∃ t, t < f ∧ statGet sb ((start + t) % cap) ≠ 3) →
      ∃ j tt, cFindSlot sb cap f start = some j ∧ tt < f ∧ j = (start + tt) % cap ∧
        (∀ u, u < tt → statGet sb ((start + u) % cap) = 3) ∧
        statGet sb j ≠ 3 := by
  intro f
  induction f with
  | zero => intro start _ h; obtain ⟨t, ht, _⟩ := h; omega
  | succ g ih =>
    intro start hstart hex
    have hs0 : (start + 0) % cap = start := by rw [Nat.add_zero, Nat.mod_eq_of_lt hstart]
    by_cases h3 : statGet sb start = 3
    · obtain ⟨t, ht, hne⟩ := hex
      have ht0 : t ≠ 0 := by
        intro h0
        subst h0
        rw [hs0] at hne
        exact hne h3
      obtain ⟨t', rfl⟩ : ∃ t', t = t' + 1 := ⟨t - 1, by omega⟩
      have hex' : ∃ t2, t2 < g ∧ statGet sb (((start + 1) % cap + t2) % cap) ≠ 3 := by
        refine ⟨t', by omega, ?_⟩
        rw [probe_shift]
        exact hne
      obtain ⟨j, tt, hfind, htt, hjpos, hpref, hfin⟩ :=
        ih ((start + 1) % cap) (Nat.mod_lt _ (by omega)) hex'
      refine ⟨j, tt + 1, ?_, by omega, ?_, ?_, hfin⟩
      · simp only [cFindSlot]
        rw [if_pos h3]
        exact hfind
      · rw [← probe_shift]
        exact hjpos
      · intro u hu
        cases u with
        | zero => rw [hs0]; exact h3
        | succ u' =>
          have h2 := hpref u' (by omega)
          rw [probe_shift] at h2
          exact h2
    · refine ⟨start, 0, ?_, by omega, hs0.symm, fun u hu => absurd hu (by omega), h3⟩
      simp only [cFindSlot]
      rw [if_neg h3]

theorem cResizeStep_some (m : CMap K V) (cap' i : Nat) (ns : List Nat) (ne : List (K × V)) :
    cResizeStep m cap' (some (ns, ne)) i
      = if cGetStatus m i = 3 then
          (match m.entries.get? i with
           | none => none
           | some kv =>
               (cFindSlot ns cap' cap' (m.hashFn kv.1 % cap')).map fun j =>
                 (statOr ns j 3, ne.set j kv))
        else some (ns, ne) := rfl

/-- Master invariant of the compact `resize` re-insertion fold over the old
slot indices: starting from a status array with codes in `{0, 3}` whose
occupied slots have distinct, probe-reachable keys, folding the remaining
old indices succeeds and adds exactly the `OCCUPIED` old entries. -/
theorem cResizeFoldInv [DecidableEq K] (m : CMap K V) (cap' : Nat) (hcap' : 0 < cap')
    (helen : m.entries.length = m.capacity) (hKD : CKeysDistinct m) :
    ∀ (l : List Nat) (ns : List Nat) (ne : List (K × V)),
      l.Nodup → (∀ i ∈ l, i < m.capacity) →
      ns.length = (cap' + 3) / 4 → ne.length = cap' → (∀ b ∈ ns, b < 256) →
      (∀ p, statGet ns p = 0 ∨ statGet ns p = 3) →
      (∀ (p q : Nat) (k : K) (v w : V), p < cap' → q < cap' →
        statGet ns p = 3 → statGet ns q = 3 →
        ne.get? p = some (k, v) → ne.get? q = some (k, w) → p = q ∧ v = w) →
      (∀ (p : Nat) (k : K) (v : V), p < cap' → statGet ns p = 3 →
        ne.get? p = some (k, v) →
        ∃ t, t < cap' ∧ p = (m.hashFn k % cap' + t) % cap' ∧
          ∀ u, u < t → statGet ns ((m.hashFn k % cap' + u) % cap') = 3) →
      (∀ i ∈ l, cGetStatus m i = 3 → ∀ (k : K) (w : V), m.entries.get? i = some (k, w) →
        ¬ ∃ p, p < cap' ∧ statGet ns p = 3 ∧ ∃ w2 : V, ne.get? p = some (k, w2)) →
      statCount ns cap' + l.countP (fun i2 => decide (cGetStatus m i2 = 3)) ≤ cap' →
      ∃ (ns' : List Nat) (ne' : List (K × V)),
        List.foldl (cResizeStep m cap') (some (ns, ne)) l = some (ns', ne') ∧
        ns'.length = (cap' + 3) / 4 ∧ ne'.length = cap' ∧ (∀ b ∈ ns', b < 256) ∧
        (∀ p, statGet ns' p = 0 ∨ statGet ns' p = 3) ∧
        (∀ (p q : Nat) (k : K) (v w : V), p < cap' → q < cap' →
          statGet ns' p = 3 → statGet ns' q = 3 →
          ne'.get? p = some (k, v) → ne'.get? q = some (k, w) → p = q ∧ v = w) ∧
        (∀ (p : Nat) (k : K) (v : V), p < cap' → statGet ns' p = 3 →
          ne'.get? p = some (k, v) →
          ∃ t, t < cap' ∧ p = (m.hashFn k % cap' + t) % cap' ∧
            ∀ u, u < t → statGet ns' ((m.hashFn k % cap' + u) % cap') = 3) ∧
        (∀ (k : K) (v : V),
          (∃ p, p < cap' ∧ statGet ns' p = 3 ∧ ne'.get? p = some (k, v)) ↔
            ((∃ p, p < cap' ∧ statGet ns p = 3 ∧ ne.get? p = some (k, v)) ∨
              ∃ i, i ∈ l ∧ cGetStatus m i = 3 ∧ m.entries.get? i = some (k, v))) := by
  intro l
  induction l with
  | nil =>
    intro ns ne _ _ hlen1 hlen2 hbytes hstat hdist hreach _ _
    refine ⟨ns, ne, rfl, hlen1, hlen2, hbytes, hstat, hdist, hreach, ?_⟩
    intro k v
    simp
  | cons i t ihl =>
    intro ns ne hnd hsub hlen1 hlen2 hbytes hstat hdist hreach hdisj hbudget
    have hilt : i < m.capacity := hsub i (List.mem_cons_self _ _)
    by_cases hi3 : cGetStatus m i = 3
    · obtain ⟨kv, he⟩ := lget_lt m.entries i (by omega)
      obtain ⟨k, v⟩ := kv
      have hpend : (i :: t).countP (fun i2 => decide (cGetStatus m i2 = 3))
          = t.countP (fun i2 => decide (cGetStatus m i2 = 3)) + 1 := by
        rw [List.countP_cons]
        simp [hi3]
      have hcountlt : statCount ns cap' < cap' := by
        rw [hpend] at hbudget
        omega
      obtain ⟨p0, hp0, hp0ne⟩ := statCount_lt_exists hcountlt
      obtain ⟨t0, ht0, hpos0⟩ := @probe_surj (m.hashFn k % cap') p0 cap' hcap' hp0
      obtain ⟨j, tt, hfind, htt, hjpos, hpref, hjne3⟩ :=
        cFindSlot_spec ns hcap' cap' (m.hashFn k % cap') (Nat.mod_lt _ hcap')
          ⟨t0, ht0, by rw [hpos0]; exact hp0ne⟩
      have hjlt : j < cap' := by rw [hjpos]; exact Nat.mod_lt _ hcap'
      have hj0 : statGet ns j = 0 := by
        rcases hstat j with h | h
        · exact h
        · exact absurd h hjne3
      have hj4 : j / 4 < ns.length := by
        rw [hlen1]
        omega
      have hstep : cResizeStep m cap' (some (ns, ne)) i
          = some (statOr ns j 3, ne.set j (k, v)) := by
        rw [cResizeStep_some, if_pos hi3, he]
        dsimp only
        rw [hfind]
        rfl
      have hknotd : ¬ ∃ p, p < cap' ∧ statGet ns p = 3 ∧ ∃ w2 : V, ne.get? p = some (k, w2) :=
        hdisj i (List.mem_cons_self _ _) hi3 k v he
      have hlen1' : (statOr ns j 3).length = (cap' + 3) / 4 := by
        rw [statOr_length]; exact hlen1
      have hlen2' : (ne.set j (k, v)).length = cap' := by
        rw [List.length_set]; exact hlen2
      have hbytes' : ∀ b ∈ statOr ns j 3, b < 256 := statOr_bytes_lt ns j hbytes
      have hgj : statGet (statOr ns j 3) j = 3 := statGet_statOr_eq ns j hj4 hbytes hj0
      have hgne : ∀ p, p ≠ j → statGet (statOr ns j 3) p = statGet ns p := by
        intro p hp
        exact statGet_statOr_ne ns j p (fun h => hp h.symm) hbytes
      have hstat' : ∀ p, statGet (statOr ns j 3) p = 0 ∨ statGet (statOr ns j 3) p = 3 := by
        intro p
        by_cases hp : p = j
        · rw [hp, hgj]
          exact Or.inr rfl
        · rw [hgne p hp]
          exact hstat p
      have hne1j : (ne.set j (k, v)).get? j = some (k, v) :=
        lget_set_same _ _ _ (by omega)
      have hne1ne : ∀ q, q ≠ j → (ne.set j (k, v)).get? q = ne.get? q := by
        intro q hq
        exact lget_set_other _ _ _ _ (fun h => hq h.symm)
      have hdist' : ∀ (p q : Nat) (k1 : K) (v1 w1 : V), p < cap' → q < cap' →
          statGet (statOr ns j 3) p = 3 → statGet (statOr ns j 3) q = 3 →
          (ne.set j (k, v)).get? p = some (k1, v1) →
          (ne.set j (k, v)).get? q = some (k1, w1) → p = q ∧ v1 = w1 := by
        intro p q k1 v1 w1 hp hq hsp hsq hep heq
        by_cases hpj : p = j
        · rw [hpj, hne1j] at hep
          injection hep with h1
          injection h1 with hk1 hv1
          by_cases hqj : q = j
          · rw [hqj, hne1j] at heq
            injection heq with h2
            injection h2 with hk2 hw1
            exact ⟨hpj.trans hqj.symm, hv1.symm.trans hw1⟩
          · exfalso
            rw [hne1ne q hqj] at heq
            rw [hgne q hqj] at hsq
            rw [← hk1] at heq
            exact hknotd ⟨q, hq, hsq, w1, heq⟩
        · rw [hne1ne p hpj] at hep
          rw [hgne p hpj] at hsp
          by_cases hqj : q = j
          · exfalso
            rw [hqj, hne1j] at heq
            injection heq with h2
            injection h2 with hk2 hw1
            rw [← hk2] at hep
            exact hknotd ⟨p, hp, hsp, v1, hep⟩
          · rw [hne1ne q hqj] at heq
            rw [hgne q hqj] at hsq
            exact hdist p q k1 v1 w1 hp hq hsp hsq hep heq
      have hreach' : ∀ (p : Nat) (k1 : K) (v1 : V), p < cap' →
          statGet (statOr ns j 3) p = 3 → (ne.set j (k, v)).get? p = some (k1, v1) →
          ∃ tr, tr < cap' ∧ p = (m.hashFn k1 % cap' + tr) % cap' ∧
            ∀ u, u < tr → statGet (statOr ns j 3) ((m.hashFn k1 % cap' + u) % cap') = 3 := by
        intro p k1 v1 hp hsp hep
        by_cases hpj : p = j
        · rw [hpj, hne1j] at hep
          injection hep with h1
          injection h1 with hk1 hv1
          refine ⟨tt, by omega, by rw [hpj, ← hk1]; exact hjpos, ?_⟩
          intro u hu
          rw [← hk1]
          have hne2 : (m.hashFn k % cap' + u) % cap' ≠ j := by
            rw [hjpos]
            exact probe_ne hu (by omega)
          rw [hgne _ hne2]
          exact hpref u hu
        · rw [hne1ne p hpj] at hep
          rw [hgne p hpj] at hsp
          obtain ⟨tr, htr, hppos, hprefr⟩ := hreach p k1 v1 hp hsp hep
          refine ⟨tr, htr, hppos, ?_⟩
          intro u hu
          have h2 := hprefr u hu
          have hne2 : (m.hashFn k1 % cap' + u) % cap' ≠ j := by
            intro heq2
            rw [heq2, hj0] at h2
            omega
          rw [hgne _ hne2]
          exact h2
      have hdisj' : ∀ i2 ∈ t, cGetStatus m i2 = 3 →
          ∀ (k2 : K) (w2 : V), m.entries.get? i2 = some (k2, w2) →
          ¬ ∃ p, p < cap' ∧ statGet (statOr ns j 3) p = 3 ∧
            ∃ w3 : V, (ne.set j (k, v)).get? p = some (k2, w3) := by
        rintro i2 hi2 hs2 k2 w2 he2 ⟨p, hp, hsp, w3, hep⟩
        by_cases hpj : p = j
        · rw [hpj, hne1j] at hep
          injection hep with h1
          injection h1 with hk2 hv3
          have hii2 : i ≠ i2 := by
            intro heq2
            exact (List.nodup_cons.mp hnd).1 (heq2 ▸ hi2)
          have hKDi := hKD i hilt i2 (hsub i2 (List.mem_cons_of_mem _ hi2)) hii2 hi3 hs2
          apply hKDi
          rw [he, he2, hk2]
          rfl
        · rw [hne1ne p hpj] at hep
          rw [hgne p hpj] at hsp
          exact hdisj i2 (List.mem_cons_of_mem _ hi2) hs2 k2 w2 he2 ⟨p, hp, hsp, w3, hep⟩
      have hbudget' : statCount (statOr ns j 3) cap'
          + t.countP (fun i2 => decide (cGetStatus m i2 = 3)) ≤ cap' := by
        rw [statCount_statOr hjlt hbytes hj4 hj0]
        rw [hpend] at hbudget
        omega
      obtain ⟨ns', ne', hfold, hl1, hl2, hb', hs', hd', hr', hc'⟩ :=
        ihl (statOr ns j 3) (ne.set j (k, v)) (List.nodup_cons.mp hnd).2
          (fun i2 hi2 => hsub i2 (List.mem_cons_of_mem _ hi2))
          hlen1' hlen2' hbytes' hstat' hdist' hreach' hdisj' hbudget'
      refine ⟨ns', ne', by rw [List.foldl_cons, hstep]; exact hfold,
        hl1, hl2, hb', hs', hd', hr', ?_⟩
      intro k1 v1
      rw [hc' k1 v1]
      constructor
      · rintro (⟨p, hp, hsp, hep⟩ | ⟨i2, hi2, hs2, he2⟩)
        · by_cases hpj : p = j
          · rw [hpj, hne1j] at hep
            injection hep with h1
            injection h1 with hk1 hv1
            exact Or.inr ⟨i, List.mem_cons_self _ _, hi3, by rw [← hk1, ← hv1]; exact he⟩
          · rw [hne1ne p hpj] at hep
            rw [hgne p hpj] at hsp
            exact Or.inl ⟨p, hp, hsp, hep⟩
        · exact Or.inr ⟨i2, List.mem_cons_of_mem _ hi2, hs2, he2⟩
      · rintro (⟨p, hp, hsp, hep⟩ | ⟨i2, hi2, hs2, he2⟩)
        · have hpj : p ≠ j := by
            intro heq2
            rw [heq2, hj0] at hsp
            omega
          refine Or.inl ⟨p, hp, ?_, ?_⟩
          · rw [hgne p hpj]
            exact hsp
          · rw [hne1ne p hpj]
            exact hep
        · rcases List.mem_cons.mp hi2 with h | h
          · rw [h] at he2
            rw [he] at he2
            injection he2 with h1
            injection h1 with hk1 hv1
            exact Or.inl ⟨j, hjlt, hgj, by rw [← hk1, ← hv1]; exact hne1j⟩
          · exact Or.inr ⟨i2, h, hs2, he2⟩
    · have hstep : cResizeStep m cap' (some (ns, ne)) i = some (ns, ne) := by
        rw [cResizeStep_some, if_neg hi3]
      have hpend : (i :: t).countP (fun i2 => decide (cGetStatus m i2 = 3))
          = t.countP (fun i2 => decide (cGetStatus m i2 = 3)) := by
        rw [List.countP_cons]
        simp [hi3]
      obtain ⟨ns', ne', hfold, hl1, hl2, hb', hs', hd', hr', hc'⟩ :=
        ihl ns ne (List.nodup_cons.mp hnd).2
          (fun i2 hi2 => hsub i2 (List.mem_cons_of_mem _ hi2))
          hlen1 hlen2 hbytes hstat hdist hreach
          (fun i2 hi2 => hdisj i2 (List.mem_cons_of_mem _ hi2))
          (by rw [hpend] at hbudget; exact hbudget)
      refine ⟨ns', ne', by rw [List.foldl_cons, hstep]; exact hfold,
        hl1, hl2, hb', hs', hd', hr', ?_⟩
      intro k1 v1
      rw [hc' k1 v1]
      constructor
      · rintro (h | ⟨i2, hi2, hs2, he2⟩)
        · exact Or.inl h
        · exact Or.inr ⟨i2, List.mem_cons_of_mem _ hi2, hs2, he2⟩
      · rintro (h | ⟨i2, hi2, hs2, he2⟩)
        · exact Or.inl h
        · rcases List.mem_cons.mp hi2 with h2 | h2
          · exfalso
            rw [h2] at hs2
            exact hi3 hs2
          · exact Or.inr ⟨i2, h2, hs2, he2⟩

/-- Top-level specification of the compact engine's `resize`: it succeeds
on a well-formed table with distinct live keys, doubles the capacity,
keeps `size` and the hash function, leaves no tombstone status codes, and
the fresh table holds exactly the previously `OCCUPIED` entries, every one
of them found by `get`. -/
theorem cResize_spec [DecidableEq K] [Inhabited K] [Inhabited V] {m : CMap K V}
    (hwf : CWf m) (hKD : CKeysDistinct m) :
    ∃ m' : CMap K V, cResize m = some m' ∧
      m'.capacity = m.capacity * 2 ∧ m'.size = m.size ∧ m'.hashFn = m.hashFn ∧
      (∀ p, cGetStatus m' p = 0 ∨ cGetStatus m' p = 3) ∧
      (∀ (k : K) (v : V),
        (∃ p, p < m'.capacity ∧ cGetStatus m' p = 3 ∧ m'.entries.get? p = some (k, v)) ↔
          ∃ i, i < m.capacity ∧ cGetStatus m i = 3 ∧ m.entries.get? i = some (k, v)) ∧
      (∀ (k : K) (v : V),
        (∃ i, i < m.capacity ∧ cGetStatus m i = 3 ∧ m.entries.get? i = some (k, v)) →
        cGet m' k = some (some v)) := by
  obtain ⟨hcap, helen, hsb, hbytes⟩ := hwf
  have hcap' : 0 < m.capacity * 2 := by omega
  have hstat0 : ∀ p, statGet (List.replicate ((m.capacity * 2 + 3) / 4) 0) p = 0 :=
    fun p => statGet_replicate_zero _ p
  have hzero3 : ∀ p, ¬ statGet (List.replicate ((m.capacity * 2 + 3) / 4) 0) p = 3 := by
    intro p h
    rw [hstat0 p] at h
    omega
  have hbud0 : statCount (List.replicate ((m.capacity * 2 + 3) / 4) 0) (m.capacity * 2)
      = 0 := by
    unfold statCount
    rw [List.countP_eq_zero]
    intro p hp
    simp [hstat0 p]
  obtain ⟨ns', ne', hfold, hl1, hl2, hb', hs', hd', hr', hc'⟩ :=
    cResizeFoldInv m (m.capacity * 2) hcap' helen hKD (List.range m.capacity)
      (List.replicate ((m.capacity * 2 + 3) / 4) 0)
      (List.replicate (m.capacity * 2) (default, default))
      (List.nodup_range _) (fun i hi => List.mem_range.mp hi)
      (List.length_replicate _ _) (List.length_replicate _ _)
      (fun b hb => by rw [List.eq_of_mem_replicate hb]; omega)
      (fun p => Or.inl (hstat0 p))
      (fun p q k v w _ _ hsp _ _ _ => absurd hsp (hzero3 p))
      (fun p k v _ hsp _ => absurd hsp (hzero3 p))
      (fun i _ _ k w _ h => by obtain ⟨p, _, hsp, _⟩ := h; exact hzero3 p hsp)
      (by
        rw [hbud0]
        have hle : List.countP (fun i2 => decide (cGetStatus m i2 = 3)) (List.range m.capacity)
            ≤ (List.range m.capacity).length := List.countP_le_length _
        rw [List.length_range] at hle
        omega)
  refine ⟨{ m with status_bits := ns', entries := ne', capacity := m.capacity * 2 },
    ?_, rfl, rfl, rfl, hs', ?_, ?_⟩
  · simp only [cResize]
    rw [hfold]
    rfl
  · intro k v
    show (∃ p, p < m.capacity * 2 ∧ statGet ns' p = 3 ∧ ne'.get? p = some (k, v)) ↔ _
    rw [hc' k v]
    constructor
    · rintro (⟨p, hp, hsp, hep⟩ | ⟨i, hi, hs2, he2⟩)
      · exact absurd hsp (hzero3 p)
      · exact ⟨i, List.mem_range.mp hi, hs2, he2⟩
    · rintro ⟨i, hi, hs2, he2⟩
      exact Or.inr ⟨i, List.mem_range.mpr hi, hs2, he2⟩
  · intro k v hold
    obtain ⟨i, hi, hs2, he2⟩ := hold
    have hnew : ∃ p, p < m.capacity * 2 ∧ statGet ns' p = 3 ∧ ne'.get? p = some (k, v) := by
      rw [hc' k v]
      exact Or.inr ⟨i, List.mem_range.mpr hi, hs2, he2⟩
    obtain ⟨p, hp, hsp, hep⟩ := hnew
    obtain ⟨tr, htr, hppos, hpref⟩ := hr' p k v hp hsp hep
    show cGetLoop { m with status_bits := ns', entries := ne', capacity := m.capacity * 2 } k
      (m.capacity * 2) (m.hashFn k % (m.capacity * 2)) = some (some v)
    refine cGetWalk
      (m := { m with status_bits := ns', entries := ne', capacity := m.capacity * 2 })
      (k := k) (v := v) hcap' tr (m.capacity * 2) (m.hashFn k % (m.capacity * 2))
      (Nat.mod_lt _ hcap') htr ?_ ?_ ?_
    · intro u hu
      have hs3 := hpref u hu
      have hposlt : (m.hashFn k % (m.capacity * 2) + u) % (m.capacity * 2) < m.capacity * 2 :=
        Nat.mod_lt _ hcap'
      obtain ⟨kw, hkw⟩ :=
        lget_lt ne' ((m.hashFn k % (m.capacity * 2) + u) % (m.capacity * 2)) (by omega)
      obtain ⟨k2, w2⟩ := kw
      refine ⟨k2, w2, fun hk2 => ?_, hs3, hkw⟩
      rw [hk2] at hkw
      obtain ⟨heq, h4⟩ := hd' p _ k v w2 hp hposlt hsp hs3 hep hkw
      exact probe_ne hu htr (heq.symm.trans hppos)
    · show statGet ns' ((m.hashFn k % (m.capacity * 2) + tr) % (m.capacity * 2)) = 3
      rw [← hppos]
      exact hsp
    · show ne'.get? ((m.hashFn k % (m.capacity * 2) + tr) % (m.capacity * 2)) = some (k, v)
      rw [← hppos]
      exact hep

/-- Claim C5: for both open-addressing engines, `resize` on a well-formed
table with distinct live keys succeeds, exactly doubles the capacity, and
re-inserts into the fresh array exactly the entries whose slot was
`Occupied` (`Deleted` and `Empty` slots are dropped): the post-resize
table contains no tombstones, its occupied cells are precisely the
pre-resize occupied entries, and `get` finds every live key with its
pre-resize value. -/
theorem c5_resize [DecidableEq K] [Inhabited K] [Inhabited V]
    (m : OAMap K V) (c : CMap K V)
    (hwf : OAWf m) (hnd : (occKeys m.data).Nodup)
    (hcw : CWf c) (hKD : CKeysDistinct c) :
    (∃ m' : OAMap K V, oaResize m = some m' ∧
      m'.capacity = 2 * m.capacity ∧ m'.size = m.size ∧
      (∀ (p : Nat) (k0 : K), m'.data.get? p ≠ some (Entry.deleted k0)) ∧
      (∀ (k : K) (v : V),
        (∃ p, m'.data.get? p = some (Entry.occupied k v)) ↔
          ∃ p, m.data.get? p = some (Entry.occupied k v)) ∧
      (∀ (k : K) (v : V), (∃ p, m.data.get? p = some (Entry.occupied k v)) →
        oaGet m' k = some (some v))) ∧
    (∃ c' : CMap K V, cResize c = some c' ∧
      c'.capacity = 2 * c.capacity ∧ c'.size = c.size ∧
      (∀ p : Nat, cGetStatus c' p ≠ 1) ∧
      (∀ (k : K) (v : V),
        (∃ p, p < c'.capacity ∧ cGetStatus c' p = 3 ∧ c'.entries.get? p = some (k, v)) ↔
          ∃ i, i < c.capacity ∧ cGetStatus c i = 3 ∧ c.entries.get? i = some (k, v)) ∧
      (∀ (k : K) (v : V),
        (∃ i, i < c.capacity ∧ cGetStatus c i = 3 ∧ c.entries.get? i = some (k, v)) →
        cGet c' k = some (some v))) := by
  constructor
  · obtain ⟨m', h1, h2, h3, h4, h5, h6, h7, h8⟩ := oaResize_spec hwf hnd
    exact ⟨m', h1, h2, h3, h6, h7, h8⟩
  · obtain ⟨c', h1, h2, h3, h4, h5, h6, h7⟩ := cResize_spec hcw hKD
    refine ⟨c', h1, by omega, h3, ?_, h6, h7⟩
    intro p hp
    rcases h5 p with h | h <;> omega

/-- Witness for C5: the concrete tables `c5pm` (plain, a tombstone between
two live keys) and `c5cm` (compact, statuses `11 01 11 00 …`) satisfy the
hypotheses, so their resizes satisfy the claim. -/
theorem c5_resize_witness :
    (∃ m' : OAMap Nat Nat, oaResize c5pm = some m' ∧
      m'.capacity = 2 * c5pm.capacity ∧ m'.size = c5pm.size ∧
      (∀ (p : Nat) (k0 : Nat), m'.data.get? p ≠ some (Entry.deleted k0)) ∧
      (∀ (k : Nat) (v : Nat),
        (∃ p, m'.data.get? p = some (Entry.occupied k v)) ↔
          ∃ p, c5pm.data.get? p = some (Entry.occupied k v)) ∧
      (∀ (k : Nat) (v : Nat), (∃ p, c5pm.data.get? p = some (Entry.occupied k v)) →
        oaGet m' k = some (some v))) ∧
    (∃ c' : CMap Nat Nat, cResize c5cm = some c' ∧
      c'.capacity = 2 * c5cm.capacity ∧ c'.size = c5cm.size ∧
      (∀ p : Nat, cGetStatus c' p ≠ 1) ∧
      (∀ (k : Nat) (v : Nat),
        (∃ p, p < c'.capacity ∧ cGetStatus c' p = 3 ∧ c'.entries.get? p = some (k, v)) ↔
          ∃ i, i < c5cm.capacity ∧ cGetStatus c5cm i = 3 ∧ c5cm.entries.get? i = some (k, v)) ∧
      (∀ (k : Nat) (v : Nat),
        (∃ i, i < c5cm.capacity ∧ cGetStatus c5cm i = 3 ∧ c5cm.entries.get? i = some (k, v)) →
        cGet c' k = some (some v))) :=
  c5_resize c5pm c5cm (by decide) (by decide) (by decide) (by decide)

end Hashmap
